import Mathlib

/-!
# Waypoint Fastly plugin: build pipeline, workspace stager and lifecycle orchestrators

A shallow embedding of `builder/builder.go`, `platform/deploy.go` and
`platform/destroy.go`.

The file system is an association list from paths to entries, newest binding
first.  Every failure of a file-system call that is determined by the state of
the file system (missing path, a file where a directory is needed, a path
deeper than the system limit) is modelled; failures that are not (full disk,
permissions) are not, except for `os.RemoveAll`, whose failure the environment
decides.  External processes and the Fastly API are oracles supplied by an
environment record.
-/

namespace Waypoint

/-! ## Errors and outcomes -/

/-- Go `error` values.  The first four are what a failed file-system call
reports (`ENOENT`, `ENOTDIR`, `EISDIR`, `ENAMETOOLONG`); `notADirectory p` is
`fmt.Errorf("%s is not a directory", p)`, `msg` any other message, and
`wrap ctx e` is `fmt.Errorf(ctx + ": %w", e)`. -/
inductive Err where
  | notExist (path : List String)
  | notDir (path : List String)
  | isDir (path : List String)
  | nameTooLong (path : List String)
  | notADirectory (path : List String)
  | msg (text : String)
  | wrap (ctx : String) (inner : Err)
  deriving DecidableEq, Repr

/-! ## File system -/

abbrev Path := List String

/-- What a path names: a directory, or a regular file with its content. -/
inductive Kind where
  | dir
  | file (content : String)
  deriving DecidableEq, Repr

abbrev FS := List (Path × Kind)

/-- Go `os.Stat`: the entry a path names, `none` when the path does not exist. -/
def stat : FS → Path → Option Kind
  | [], _ => none
  | (q, k) :: fs, p => if q = p then some k else stat fs p

/-- Go `os.Stat` as `os.MkdirAll` sees it: a path deeper than the system limit
cannot be looked up (`ENAMETOOLONG`). -/
def statWithin (limit : Nat) (fs : FS) (p : Path) : Option Kind :=
  if limit < p.length then none else stat fs p

/-- Go `os.Mkdir` once the parent is known to be a directory: fails only when the
path is deeper than the system limit. -/
def mkdirLeaf (limit : Nat) (fs : FS) (p : Path) : Option Err × FS :=
  if limit < p.length then (some (.nameTooLong p), fs) else (none, (p, .dir) :: fs)

/-- Go `os.MkdirAll` on the first `n` components of `p`: succeed at once on an
existing directory, fail on an existing file, otherwise make the parent and
then the directory itself. -/
def mkdirAllAux (limit : Nat) (p : Path) : Nat → FS → Option Err × FS
  | 0, fs =>
    match statWithin limit fs (p.take 0) with
    | some .dir => (none, fs)
    | some (.file _) => (some (.notDir (p.take 0)), fs)
    | none => mkdirLeaf limit fs (p.take 0)
  | n + 1, fs =>
    match statWithin limit fs (p.take (n + 1)) with
    | some .dir => (none, fs)
    | some (.file _) => (some (.notDir (p.take (n + 1))), fs)
    | none =>
      match mkdirAllAux limit p n fs with
      | (some e, fs1) => (some e, fs1)
      | (none, fs1) => mkdirLeaf limit fs1 (p.take (n + 1))

/-- Go `os.MkdirAll(p, 0755)`. -/
def mkdirAll (limit : Nat) (fs : FS) (p : Path) : Option Err × FS :=
  mkdirAllAux limit p p.length fs

/-- One entry of a directory listing (`os.DirEntry`). -/
structure DirEntry where
  Name : String
  IsDir : Bool
  deriving DecidableEq, Repr

/-- Names bound directly under `p`, one per binding. -/
def childNames (fs : FS) (p : Path) : List String :=
  fs.filterMap (fun e => if e.1 ≠ [] ∧ e.1.dropLast = p then e.1.getLast? else none)

/-- Go `os.ReadDir`: the entries of a directory, sorted by file name. -/
def readDir (fs : FS) (p : Path) : Except Err (List DirEntry) :=
  match stat fs p with
  | none => .error (.notExist p)
  | some (.file _) => .error (.notDir p)
  | some .dir =>
    .ok (((childNames fs p).dedup.insertionSort (fun a b => a ≤ b)).map
      (fun n => ⟨n, decide (stat fs (p ++ [n]) = some .dir)⟩))

/-- Go `os.Create`: make or truncate the file at `p`. -/
def create (limit : Nat) (fs : FS) (p : Path) : Option Err × FS :=
  if limit < p.length then (some (.nameTooLong p), fs)
  else
    match stat fs p.dropLast with
    | none => (some (.notExist p), fs)
    | some (.file _) => (some (.notDir p), fs)
    | some .dir =>
      match stat fs p with
      | some .dir => (some (.isDir p), fs)
      | _ => (none, (p, .file "") :: fs)

/-- The file system without `p` and everything below it: what a successful
`os.RemoveAll(p)` leaves. -/
def removeAll (fs : FS) (p : Path) : FS :=
  fs.filter (fun e => ¬ p <+: e.1)

/-! ## Workspace stager (`builder/builder.go`) -/

/-- Go `copyFile(src, dst)`: open the source, create the destination, copy the
bytes. -/
def copyFile (limit : Nat) (fs : FS) (src dst : Path) : Option Err × FS :=
  match stat fs src with
  | none => (some (.notExist src), fs)
  | some k =>
    match create limit fs dst with
    | (some e, fs1) => (some e, fs1)
    | (none, fs1) =>
      match k with
      | .dir => (some (.isDir src), fs1)
      | .file c => (none, (dst, .file c) :: fs1)

/-- The `for _, entry := range entries` loop of `copyDir`; `recur` is the
recursive call of `copyDir`. -/
def copyEntries (recur : FS → Path → Path → Option (Option Err × FS)) (limit : Nat)
    (src dst : Path) : FS → List DirEntry → Option (Option Err × FS)
  | fs, [] => some (none, fs)
  | fs, entry :: rest =>
    if entry.IsDir then
      match recur fs (src ++ [entry.Name]) (dst ++ [entry.Name]) with
      | none => none
      | some (some e, fs1) => some (some e, fs1)
      | some (none, fs1) => copyEntries recur limit src dst fs1 rest
    else
      match copyFile limit fs (src ++ [entry.Name]) (dst ++ [entry.Name]) with
      | (some e, fs1) => some (some e, fs1)
      | (none, fs1) => copyEntries recur limit src dst fs1 rest

/-- The body of `copyDir(src, dst)`. -/
def copyDirBody (recur : FS → Path → Path → Option (Option Err × FS)) (limit : Nat)
    (fs : FS) (src dst : Path) : Option (Option Err × FS) :=
  match stat fs src with
  | none => some (some (.notExist src), fs)
  | some (.file _) => some (some (.notADirectory src), fs)
  | some .dir =>
    match mkdirAll limit fs dst with
    | (some e, fs1) => some (some e, fs1)
    | (none, fs1) =>
      match readDir fs1 src with
      | .error e => some (some e, fs1)
      | .ok entries => copyEntries recur limit src dst fs1 entries

/-- Go `copyDir` with a bound on the depth of recursion; `none` when the bound is
reached. -/
def copyDirFuel (limit : Nat) : Nat → FS → Path → Path → Option (Option Err × FS)
  | 0 => copyDirBody (fun _ _ _ => none) limit
  | k + 1 => copyDirBody (copyDirFuel limit k) limit

/-- Go `copyDir(src, dst)`.  A destination deeper than the path limit cannot be
created, so `limit + 1 - dst.length` nested calls always suffice
(`copyDirFuel_isSome`). -/
def copyDir (limit : Nat) (fs : FS) (src dst : Path) : Option Err × FS :=
  (copyDirFuel limit (limit + 1 - dst.length) fs src dst).getD (some (.msg "unreachable"), fs)

/-! ## Specification of staging -/

/-- The state in which `copyDir(src, dst)` is called: the source is a
well-formed directory tree, no component of the destination is a file, nothing
exists below the destination, the destination lies outside the source tree,
and every path to be created is within the limit. -/
structure CopyPre (limit : Nat) (fs : FS) (src dst : Path) : Prop where
  srcDir : stat fs src = some .dir
  srcTree : ∀ r n, stat fs (src ++ r ++ [n]) ≠ none → stat fs (src ++ r) = some .dir
  anc : ∀ q, q <+: dst → stat fs q = none ∨ stat fs q = some .dir
  ancClosed : ∀ q, q <+: dst → stat fs q = some .dir →
    ∀ q1, q1 <+: q → stat fs q1 = some .dir
  fresh : ∀ r, r ≠ [] → stat fs (dst ++ r) = none
  outside : ¬ src <+: dst
  within : ∀ r, stat fs (src ++ r) ≠ none → dst.length + r.length ≤ limit

/-- The state `copyDir(src, dst)` leaves: below the destination the tree that
was below the source, the components of the destination are directories, and
every other path is as before. -/
structure CopyPost (fs fs1 : FS) (src dst : Path) : Prop where
  copied : ∀ r, stat fs1 (dst ++ r) = stat fs (src ++ r)
  frame : ∀ q, ¬ dst <+: q → stat fs1 q = if q <+: dst then some .dir else stat fs q

/-- Invariant of the loop over the directory entries: the entries in `done`
have been copied, every path outside them is as `MkdirAll` left it. -/
structure LoopInv (fs0 fs1 : FS) (src dst : Path) (done : List String) (fs : FS) : Prop where
  copied : ∀ n, n ∈ done → ∀ r, stat fs (dst ++ n :: r) = stat fs0 (src ++ n :: r)
  frame : ∀ q, (∀ n, n ∈ done → ¬ (dst ++ [n]) <+: q) → stat fs q = stat fs1 q

/-- Every entry other than the root lies in a directory. -/
def wellFormed (fs : FS) : Prop :=
  ∀ e ∈ fs, e.1 = [] ∨ stat fs e.1.dropLast = some .dir

instance (fs : FS) : Decidable (wellFormed fs) :=
  inferInstanceAs (Decidable (∀ e ∈ fs, e.1 = [] ∨ stat fs e.1.dropLast = some .dir))

/-- A project with a manifest and a source directory, next to a temporary
directory. -/
def sampleFS : FS :=
  [(["app", "src", "index.js"], .file "export default 1"),
   (["app", "src"], .dir),
   (["app", "package.json"], .file "{}"),
   (["app"], .dir),
   (["tmp"], .dir),
   ([], .dir)]

/-- The errors that report a failed file-system call. -/
def Err.ioFailure : Err → Bool
  | .notExist _ => true
  | .notDir _ => true
  | .isDir _ => true
  | .nameTooLong _ => true
  | _ => false

/-- Every directory of `fs` is a directory of `fs1`. -/
def DirsKept (fs fs1 : FS) : Prop :=
  ∀ q, stat fs q = some .dir → stat fs1 q = some .dir

/-! ## Build pipeline (`builder/builder.go`) -/

structure BuildConfig where
  Directory : String
  deriving DecidableEq, Repr

structure Builder where
  config : BuildConfig
  deriving DecidableEq, Repr

/-- The `interface{}` handed to `ConfigSet`: a `*BuildConfig`, or a value of
some other type. -/
inductive ConfigValue where
  | buildConfig (c : BuildConfig)
  | other (typeName : String)
  deriving DecidableEq, Repr

/-- Go `Builder.ConfigSet`; `none` is the nil error. -/
def Builder.ConfigSet (config : ConfigValue) : Option Err :=
  match config with
  | .other _ => some (.msg "expected *BuildConfig as parameter")
  | .buildConfig c =>
    if c.Directory = "" then some (.msg "directory must be set to a valid directory")
    else none

/-- Go `exec.CommandContext(ctx, name, args...)` with `cmd.Dir` set. -/
structure Cmd where
  name : String
  args : List String
  dir : Path
  deriving DecidableEq, Repr

/-- Result of `Builder.build`: where the build output is. -/
structure Binary where
  Location : Path
  deriving DecidableEq, Repr

/-- What a child process does, as far as `runCommand` can tell: the pipe cannot
be opened, the process cannot be started, or it runs, prints its lines, leaves
the file system in some state and exits with a status (`none` for zero). -/
inductive ProcResult where
  | pipeError (e : Err)
  | startError (e : Err)
  | exited (output : List String) (status : Option Err) (fs : FS)

/-- The surroundings of a build: the path limit of the file system, how a path
string resolves, what `os.MkdirTemp` answers, what a child process does, and
whether `os.RemoveAll` fails: `removeFailure fs p` is `none` when the removal of
`p` from `fs` succeeds, and otherwise the error it returns together with the
file system it leaves behind. -/
structure Env where
  limit : Nat
  resolve : String → Path
  mkdirTemp : FS → Except Err Path
  exec : Cmd → FS → ProcResult
  removeFailure : FS → Path → Option (Err × FS)

/-- What the operating system saw happen: a process that was started, a call of
`os.RemoveAll` with the error it returned.  Events are recorded by the calls
themselves (`runCommand`, `osRemoveAll`), not by their callers. -/
inductive Event where
  | started (cmd : Cmd)
  | removeAll (dir : Path) (err : Option Err)
  deriving DecidableEq, Repr

structure World where
  fs : FS
  log : List Event

/-- Go `runCommand(cmd, ui)`: a failure to open the pipe or to start the process
is returned as it is, a failed wait is wrapped. -/
def runCommand (env : Env) (cmd : Cmd) (w : World) : Option Err × World :=
  match env.exec cmd w.fs with
  | .pipeError e => (some e, w)
  | .startError e => (some e, w)
  | .exited _ none fs1 => (none, ⟨fs1, w.log ++ [.started cmd]⟩)
  | .exited _ (some e) fs1 =>
    (some (.wrap "command failed" e), ⟨fs1, w.log ++ [.started cmd]⟩)

/-- Go `os.RemoveAll(p)`: the tree is removed, or the call fails with an error
and leaves what it could not remove. -/
def osRemoveAll (env : Env) (w : World) (p : Path) : Option Err × World :=
  match env.removeFailure w.fs p with
  | none => (none, ⟨removeAll w.fs p, w.log ++ [.removeAll p none]⟩)
  | some (e, left) => (some e, ⟨left, w.log ++ [.removeAll p (some e)]⟩)

/-- The source directory `build` stages: the configured one, `"."` when none is
configured. -/
def sourceDir (b : Builder) : String :=
  if b.config.Directory ≠ "" then b.config.Directory else "."

def installCmd (tempDir : Path) : Cmd := ⟨"npm", ["install"], tempDir⟩

def buildCmd (tempDir : Path) : Cmd := ⟨"npm", ["run", "build"], tempDir⟩

/-- Go `Builder.build` from the point where the scratch directory exists and its
removal is deferred, up to the `return`. -/
def buildSteps (env : Env) (b : Builder) (tempDir : Path) (w : World) :
    Except Err Binary × World :=
  match copyDir env.limit w.fs (env.resolve (sourceDir b)) tempDir with
  | (some e, fs1) =>
    (.error (.wrap "error copying source directory to temp directory" e), ⟨fs1, w.log⟩)
  | (none, fs1) =>
    match runCommand env (installCmd tempDir) ⟨fs1, w.log⟩ with
    | (some e, w2) => (.error (.wrap "error running npm install" e), w2)
    | (none, w2) =>
      match runCommand env (buildCmd tempDir) w2 with
      | (some e, w3) => (.error (.wrap "error running npm run build" e), w3)
      | (none, w3) => (.ok ⟨tempDir ++ ["build", "index.js"]⟩, w3)

/-- Go `Builder.build`: allocate the scratch directory, run the steps, and on the
way out run the deferred `_ = os.RemoveAll(tempDir)`, whose error is dropped. -/
def Builder.build (env : Env) (b : Builder) (w : World) : Except Err Binary × World :=
  match env.mkdirTemp w.fs with
  | .error e => (.error (.wrap "error creating temp directory" e), w)
  | .ok tempDir =>
    let r := buildSteps env b tempDir ⟨(tempDir, .dir) :: w.fs, w.log⟩
    (r.1, (osRemoveAll env r.2 tempDir).2)

/-- What `copyDir(sourceDir, tempDir)` returns in the run of `build` that starts
in `w` and is given the scratch directory `t`. -/
def stagingResult (env : Env) (b : Builder) (w : World) (t : Path) : Option Err × FS :=
  copyDir env.limit ((t, .dir) :: w.fs) (env.resolve (sourceDir b)) t

/-- What `runCommand` returns for `npm install` in that run, started in the
file system that staging left. -/
def installResult (env : Env) (b : Builder) (w : World) (t : Path) : Option Err × World :=
  runCommand env ⟨"npm", ["install"], t⟩ ⟨(stagingResult env b w t).2, w.log⟩

/-- What `runCommand` returns for `npm run build` in that run, started in the
world that `npm install` left. -/
def buildResult (env : Env) (b : Builder) (w : World) (t : Path) : Option Err × World :=
  runCommand env ⟨"npm", ["run", "build"], t⟩ (installResult env b w t).2

/-! ## Go run-time outcomes -/

/-- How a Go call ends: a value with a nil error, a non-nil error, or a
run-time panic. -/
inductive Outcome (α : Type) where
  | ok (value : α)
  | err (e : Err)
  | panic (reason : String)
  deriving DecidableEq, Repr

/-- Reason of the panic raised by a method call or field access through a nil
pointer. -/
def nilDereference : String := "invalid memory address or nil pointer dereference"

/-! ## Resource manager -/

/-- Modelled from the spec: a Resource of the resource-manager framework the
repository imports, "identified by a unique name within its manager; holds a
state value".  The handlers bound to it at construction are passed to the
aggregate operations below. -/
structure Resource (σ : Type) where
  name : String
  state : σ
  deriving DecidableEq, Repr

/-- Modelled from the spec: the Resource Manager, which "owns an ordered
collection of Resources". -/
structure Manager (σ : Type) where
  resources : List (Resource σ)
  deriving DecidableEq, Repr

/-- Modelled from the spec: ResourceState, "an ordered collection of
per-resource opaque state blobs, keyed by resource name". -/
abbrev ResourceState (σ : Type) := List (String × σ)

/-- Modelled from the spec: `Resource(name)`, the "direct accessor used by
orchestrators to seed state manually".  The manager keeps its resources by
name, and a name that no declared resource has yields the nil resource. -/
def Manager.Resource {σ : Type} (m : Manager σ) (n : String) : Option (Resource σ) :=
  m.resources.find? (fun r => r.name = n)

/-- Modelled from the spec: `SetState` on the resource named `n`. -/
def Manager.SetState {σ : Type} (m : Manager σ) (n : String) (v : σ) : Manager σ :=
  ⟨m.resources.map (fun r => if r.name = n then ⟨r.name, v⟩ else r)⟩

/-- Modelled from the spec: `State()` "snapshots every resource's current
opaque state into the aggregate ResourceState". -/
def Manager.State {σ : Type} (m : Manager σ) : ResourceState σ :=
  m.resources.map (fun r => (r.name, r.state))

/-- Modelled from the spec: `LoadState(blob)`, "for each declared resource,
locates its corresponding entry in the blob by name and calls the resource's
state-set; a resource with no matching entry is left in its constructed
state". -/
def Manager.LoadState {σ : Type} (m : Manager σ) (blob : ResourceState σ) : Manager σ :=
  ⟨m.resources.map (fun r =>
    match (blob.find? (fun e => e.1 = r.name)) with
    | some e => ⟨r.name, e.2⟩
    | none => r)⟩

/-- Modelled from the spec: `CreateAll` "iterates declared resources in order,
invoking each create handler with ... a mutable result record the handlers may
populate.  First error aborts and is returned to the caller". -/
def createEach {σ ρ : Type} (create : ρ → Outcome ρ) : List (Resource σ) → ρ → Outcome ρ
  | [], result => .ok result
  | _ :: rest, result =>
    match create result with
    | .ok r1 => createEach create rest r1
    | .err e => .err e
    | .panic s => .panic s

def Manager.CreateAll {σ ρ : Type} (m : Manager σ) (create : ρ → Outcome ρ) (result : ρ) :
    Outcome ρ :=
  createEach create m.resources result

/-- Calls a handler makes to the Fastly API while destroying. -/
inductive ApiCall where
  | listServices
  | deleteService (id : String)
  deriving DecidableEq, Repr

/-- Modelled from the spec: `DestroyAll` "iterates declared resources in order,
invoking each destroy handler".  The iteration ends at a handler that fails;
the managers of this repository declare one resource each. -/
def destroyEach {σ : Type} (destroy : Outcome Unit × List ApiCall) :
    List (Resource σ) → Outcome Unit × List ApiCall
  | [] => (.ok (), [])
  | _ :: rest =>
    match destroy with
    | (.ok _, calls) => ((destroyEach destroy rest).1, calls ++ (destroyEach destroy rest).2)
    | (.err e, calls) => (.err e, calls)
    | (.panic s, calls) => (.panic s, calls)

def Manager.DestroyAll {σ : Type} (m : Manager σ) (destroy : Outcome Unit × List ApiCall) :
    Outcome Unit × List ApiCall :=
  destroyEach destroy m.resources

inductive Health where
  | UNKNOWN
  | ALIVE
  | READY
  | DOWN
  deriving DecidableEq, Repr

structure StatusReport where
  Health : Health
  deriving DecidableEq, Repr

/-- Modelled from the spec: `StatusReport` "invokes each resource's status
handler and aggregates results into a single report whose overall health
defaults to unknown"; it fails when a handler fails. -/
def statusEach {σ : Type} (status : Outcome Unit) : List (Resource σ) → Outcome StatusReport
  | [] => .ok ⟨.UNKNOWN⟩
  | _ :: rest =>
    match status with
    | .ok _ => statusEach status rest
    | .err e => .err e
    | .panic s => .panic s

def Manager.StatusReport {σ : Type} (m : Manager σ) (status : Outcome Unit) :
    Outcome StatusReport :=
  statusEach status m.resources

/-! ## Platform (`platform/deploy.go`, `platform/destroy.go`) -/

/-- Modelled from the spec: the state record of the deployment resource
(generated from the repository's protobuf file, not under src/), "an opaque,
serializable record specific to this resource kind (e.g., a deployment
name)". -/
structure Resource_Deployment where
  Name : String
  deriving DecidableEq, Repr

/-- Modelled from the spec: the Deployment record (generated from the
repository's protobuf file, not under src/), which carries "an identifier, a
display name, and the embedded ResourceState blob".  `ResourceState` is a
pointer and may be nil. -/
structure Deployment where
  Id : String
  Name : String
  ResourceState : Option (ResourceState Resource_Deployment)
  deriving DecidableEq, Repr

/-- A service as the Fastly API reports it. -/
structure Service where
  ID : String
  Name : String
  ActiveVersion : Nat
  deriving DecidableEq, Repr

/-- The input of the client's `CreateBackend`; a field the caller does not set
is zero. -/
structure CreateBackendInput where
  Service : String
  Version : Nat
  Name : String
  Address : String
  Port : Nat
  deriving DecidableEq, Repr

/-- The input of the client's `CreateDomain`. -/
structure CreateDomainInput where
  Service : String
  Version : Nat
  Name : String
  deriving DecidableEq, Repr

/-- The process environment and the answers of the Fastly API to the requests
that reach it during one invocation of the plugin. -/
structure Fastly where
  getenv : String → String
  getwd : Except Err Path
  openFile : Path → Except Err Unit
  newClient : String → Except Err Unit
  createService : String → Except Err Service
  createBackend : CreateBackendInput → Except Err Unit
  createDomain : CreateDomainInput → Except Err Unit
  listServices : Except Err (List Service)
  deleteService : String → Except Err Unit
  getServiceDetails : String → Except Err String

/-- The error with which the Fastly client refuses an input that names no
service. -/
def errMissingService : Err := .msg "missing required field 'Service'"

/-- The Fastly client's `CreateBackend`: an input without a service id is
refused by the client itself, before any request is made. -/
def Client.CreateBackend (api : Fastly) (i : CreateBackendInput) : Except Err Unit :=
  if i.Service = "" then .error errMissingService else api.createBackend i

/-- The Fastly client's `CreateDomain`: an input without a service id is refused
by the client itself, before any request is made. -/
def Client.CreateDomain (api : Fastly) (i : CreateDomainInput) : Except Err Unit :=
  if i.Service = "" then .error errMissingService else api.createDomain i

/-- Go `Platform.resourceManager`: one resource, named `template_example`, with a
zero `Resource_Deployment` as its state. -/
def Platform.resourceManager : Manager Resource_Deployment :=
  ⟨[⟨"template_example", ⟨""⟩⟩]⟩

/-- Go `Platform.resourceDeploymentCreate`.  The backend and domain inputs are
built without the `Service` field. -/
def Platform.resourceDeploymentCreate (api : Fastly) (result : Deployment) :
    Outcome Deployment :=
  match api.getwd with
  | .error e => .err e
  | .ok cwd =>
    match api.openFile (cwd ++ ["app.js"]) with
    | .error e => .err e
    | .ok _ =>
      match api.newClient (api.getenv "FASTLY_API_TOKEN") with
      | .error e => .err e
      | .ok _ =>
        match api.createService (api.getenv "FASTLY_SERVICE_NAME") with
        | .error e => .err e
        | .ok service =>
          match Client.CreateBackend api
              ⟨"", service.ActiveVersion, api.getenv "BACKEND_NAME", api.getenv "BACKEND_URL",
                443⟩ with
          | .error e => .err e
          | .ok _ =>
            match Client.CreateDomain api
                ⟨"", service.ActiveVersion, api.getenv "APP_DOMAIN"⟩ with
            | .error e => .err e
            | .ok _ => .ok { result with Id := service.ID, Name := service.Name }

/-- The local variable `result` of `Platform.deploy` when the `return`
statement is reached: populated by `CreateAll`, then given the manager's
state. -/
def Platform.deployResult (api : Fastly) : Outcome Deployment :=
  let rm := Platform.resourceManager
  match rm.CreateAll (Platform.resourceDeploymentCreate api) ⟨"", "", none⟩ with
  | .err e => .err e
  | .panic s => .panic s
  | .ok result => .ok { result with ResourceState := some rm.State }

/-- Go `Platform.deploy`: what it returns is `&Deployment{}`. -/
def Platform.deploy (api : Fastly) : Outcome Deployment :=
  match Platform.deployResult api with
  | .err e => .err e
  | .panic s => .panic s
  | .ok _ => .ok ⟨"", "", none⟩

/-- Go `Platform.resourceDeploymentStatus`; the error of `fastly.NewClient` is
dropped, and the client it leaves is nil. -/
def Platform.resourceDeploymentStatus (api : Fastly) : Outcome Unit :=
  match api.newClient (api.getenv "FASTLY_API_TOKEN") with
  | .error _ => .panic nilDereference
  | .ok _ =>
    match api.getServiceDetails (api.getenv "FASTLY_SERVICE_ID") with
    | .error e => .err e
    | .ok _ => .ok ()

/-- The state `Platform.status` seeds when the record has no ResourceState. -/
def Platform.statusSeed (deployment : Deployment) : Resource_Deployment :=
  ⟨deployment.Id⟩

/-- The state `Platform.destroy` seeds when the record has no ResourceState. -/
def Platform.destroySeed (deployment : Deployment) : Resource_Deployment :=
  ⟨deployment.Name⟩

/-- Go `Platform.status`. -/
def Platform.status (api : Fastly) (deployment : Deployment) : Outcome StatusReport :=
  let rm := Platform.resourceManager
  let seeded : Outcome (Manager Resource_Deployment) :=
    match deployment.ResourceState with
    | none =>
      match rm.Resource "deployment" with
      | none => .panic nilDereference
      | some _ => .ok (rm.SetState "deployment" (Platform.statusSeed deployment))
    | some blob => .ok (rm.LoadState blob)
  match seeded with
  | .err e => .err e
  | .panic s => .panic s
  | .ok rm1 =>
    match rm1.StatusReport (Platform.resourceDeploymentStatus api) with
    | .err e => .err (.wrap "resource manager failed to generate resource statuses" e)
    | .panic s => .panic s
    | .ok report => .ok { report with Health := .UNKNOWN }

/-- The loop of `Platform.getServiceID` over the listed services. -/
def Platform.findService (deploymentName : String) : List Service → Except Err String
  | [] => .error (.msg ("service not found: " ++ deploymentName))
  | s :: rest => if s.Name = deploymentName then .ok s.ID
    else Platform.findService deploymentName rest

/-- Go `Platform.getServiceID`. -/
def Platform.getServiceID (api : Fastly) (deploymentName : String) : Except Err String :=
  match api.listServices with
  | .error e => .error (.wrap "failed to list Fastly services" e)
  | .ok services => Platform.findService deploymentName services

/-- Go `Platform.resourceDeploymentDestroy`.  The handler has no state parameter:
it reads the deployment name from a manager it builds itself. -/
def Platform.resourceDeploymentDestroy (api : Fastly) : Outcome Unit × List ApiCall :=
  match Platform.resourceManager.Resource "deployment" with
  | none => (.panic nilDereference, [])
  | some r =>
    let deploymentName := r.state.Name
    match api.newClient (api.getenv "FASTLY_API_TOKEN") with
    | .error e => (.err (.wrap "failed to create Fastly client" e), [])
    | .ok _ =>
      match Platform.getServiceID api deploymentName with
      | .error e => (.err (.wrap "failed to find Fastly service ID" e), [.listServices])
      | .ok serviceID =>
        match api.deleteService serviceID with
        | .error e =>
          (.err (.wrap "failed to delete Fastly service" e),
            [.listServices, .deleteService serviceID])
        | .ok _ => (.ok (), [.listServices, .deleteService serviceID])

/-- Go `Platform.destroy`. -/
def Platform.destroy (api : Fastly) (deployment : Deployment) :
    Outcome Unit × List ApiCall :=
  let rm := Platform.resourceManager
  let seeded : Outcome (Manager Resource_Deployment) :=
    match deployment.ResourceState with
    | none =>
      match rm.Resource "deployment" with
      | none => .panic nilDereference
      | some _ => .ok (rm.SetState "deployment" (Platform.destroySeed deployment))
    | some blob => .ok (rm.LoadState blob)
  match seeded with
  | .err e => (.err e, [])
  | .panic s => (.panic s, [])
  | .ok rm1 => rm1.DestroyAll (Platform.resourceDeploymentDestroy api)

/-! ## Sample inputs -/

/-- An invocation in which the Fastly API accepts every request that reaches it
and reports the new service as `svc-1`, named as asked. -/
def happyApi : Fastly where
  getenv := fun _ => "app"
  getwd := .ok ["work"]
  openFile := fun _ => .ok ()
  newClient := fun _ => .ok ()
  createService := fun n => .ok ⟨"svc-1", n, 1⟩
  createBackend := fun _ => .ok ()
  createDomain := fun _ => .ok ()
  listServices := .ok [⟨"svc-1", "app", 1⟩]
  deleteService := fun _ => .ok ()
  getServiceDetails := fun id => .ok id

/-- An invocation after the service has been deleted: the API lists no
service. -/
def goneApi : Fastly :=
  { happyApi with listServices := .ok [] }

/-- A Deployment record as a first deploy would persist it, with the resource
state of the declared resource. -/
def restoredDeployment : Deployment :=
  ⟨"svc-1", "app", some [("template_example", ⟨"app"⟩)]⟩

/-- A Deployment record without persisted resource state. -/
def legacyDeployment : Deployment :=
  ⟨"svc-1", "app", none⟩

/-- A project whose directories hold one entry each. -/
def smallFS : FS :=
  [(["app", "index.js"], .file "export default 1"), (["app"], .dir), (["tmp"], .dir),
   ([], .dir)]

/-- A build environment in which the scratch directory is `tmp/build` and
`npm install` and `npm run build` exit with the given statuses. -/
def sampleEnv (install run : Option Err) : Env where
  limit := 8
  resolve := fun _ => ["app"]
  mkdirTemp := fun _ => .ok ["tmp", "build"]
  exec := fun c fs => .exited [] (if c.args = ["install"] then install else run) fs
  removeFailure := fun _ _ => none

/-- The same environment with both commands exiting normally and an
`os.RemoveAll` that fails and removes nothing. -/
def stuckEnv : Env :=
  { sampleEnv none none with
    removeFailure := fun fs _ => some (.msg "permission denied", fs) }

/-! ## File-system lemmas -/

theorem stat_cons (q : Path) (k : Kind) (fs : FS) (p : Path) :
    stat ((q, k) :: fs) p = if q = p then some k else stat fs p := rfl

theorem stat_mem {fs : FS} {p : Path} {k : Kind} (h : stat fs p = some k) : (p, k) ∈ fs := by
  induction fs with
  | nil => simp [stat] at h
  | cons e fs ih =>
    obtain ⟨q, k1⟩ := e
    rw [stat_cons] at h
    by_cases hq : q = p
    · simp [hq] at h
      simp [hq, h]
    · simp [hq] at h
      exact List.mem_cons_of_mem _ (ih h)

theorem stat_ne_none_of_mem {fs : FS} {p : Path} {k : Kind} (h : (p, k) ∈ fs) :
    stat fs p ≠ none := by
  induction fs with
  | nil => simp at h
  | cons e fs ih =>
    obtain ⟨q, k1⟩ := e
    rw [stat_cons]
    by_cases hq : q = p
    · simp [hq]
    · simp only [hq, if_false]
      rcases List.mem_cons.1 h with h1 | h1
      · exact absurd (congrArg Prod.fst h1).symm hq
      · exact ih h1

theorem concat_eq_iff (q p : Path) (n : String) :
    (q ≠ [] ∧ q.dropLast = p ∧ q.getLast? = some n) ↔ q = p ++ [n] := by
  constructor
  · rintro ⟨_, h2, h3⟩
    obtain ⟨ys, rfl⟩ := List.getLast?_eq_some_iff.1 h3
    simp at h2
    rw [h2]
  · rintro rfl
    simp

theorem mem_childNames (fs : FS) (p : Path) (n : String) :
    n ∈ childNames fs p ↔ stat fs (p ++ [n]) ≠ none := by
  unfold childNames
  rw [List.mem_filterMap]
  constructor
  · rintro ⟨⟨q, k⟩, hmem, hq⟩
    by_cases hc : q ≠ [] ∧ q.dropLast = p
    · rw [if_pos hc] at hq
      have : q = p ++ [n] := (concat_eq_iff q p n).1 ⟨hc.1, hc.2, hq⟩
      subst this
      exact stat_ne_none_of_mem hmem
    · simp [hc] at hq
  · intro h
    cases hs : stat fs (p ++ [n]) with
    | none => exact absurd hs h
    | some k =>
      refine ⟨(p ++ [n], k), stat_mem hs, ?_⟩
      simp

/-- What a successful `readDir` returns: distinct names, exactly the children
of `p`, each flagged as a directory or not. -/
theorem readDir_spec {fs : FS} {p : Path} (hp : stat fs p = some .dir) :
    ∃ es, readDir fs p = .ok es ∧ (es.map DirEntry.Name).Nodup ∧
      (∀ n, n ∈ es.map DirEntry.Name ↔ stat fs (p ++ [n]) ≠ none) ∧
      (∀ e ∈ es, e.IsDir = decide (stat fs (p ++ [e.Name]) = some .dir)) := by
  have hrd : readDir fs p = .ok (((childNames fs p).dedup.insertionSort (fun a b => a ≤ b)).map
      (fun n => ⟨n, decide (stat fs (p ++ [n]) = some .dir)⟩)) := by
    simp only [readDir, hp]
  refine ⟨_, hrd, ?_, ?_, ?_⟩
  · rw [List.map_map]
    have : (DirEntry.Name ∘ fun n => (⟨n, decide (stat fs (p ++ [n]) = some .dir)⟩ : DirEntry))
        = id := by
      funext n; rfl
    rw [this, List.map_id]
    exact ((List.perm_insertionSort _ _).nodup_iff).2 (List.nodup_dedup _)
  · intro n
    rw [List.map_map]
    have : (DirEntry.Name ∘ fun n => (⟨n, decide (stat fs (p ++ [n]) = some .dir)⟩ : DirEntry))
        = id := by
      funext n; rfl
    rw [this, List.map_id, (List.perm_insertionSort _ _).mem_iff, List.mem_dedup]
    exact mem_childNames fs p n
  · intro e he
    obtain ⟨n, _, rfl⟩ := List.mem_map.1 he
    rfl

theorem prefix_take_succ {p q : Path} {n : Nat} :
    q <+: p.take (n + 1) ↔ q = p.take (n + 1) ∨ q <+: p.take n := by
  simp only [List.prefix_take_iff]
  constructor
  · rintro ⟨h1, h2⟩
    by_cases h : q.length ≤ n
    · exact Or.inr ⟨h1, h⟩
    · left
      have h3 : q.length = n + 1 := by omega
      have h4 := List.prefix_iff_eq_take.1 h1
      rw [h3] at h4
      exact h4
  · rintro (rfl | ⟨h1, h2⟩)
    · exact ⟨List.take_prefix _ _, by simp⟩
    · exact ⟨h1, by omega⟩

theorem mkdirLeaf_ok {limit : Nat} (fs : FS) {p : Path} (h : p.length ≤ limit) :
    mkdirLeaf limit fs p = (none, (p, .dir) :: fs) := by
  unfold mkdirLeaf
  rw [if_neg (by omega)]

theorem statWithin_eq {limit : Nat} (fs : FS) {p : Path} (h : p.length ≤ limit) :
    statWithin limit fs p = stat fs p := by
  unfold statWithin
  rw [if_neg (by omega)]

/-- Go `MkdirAll` succeeds when no component of the path is a file and the path is
within the limit; afterwards every prefix of the path is a directory and
nothing else has changed. -/
theorem mkdirAllAux_ok (limit : Nat) (p : Path) (fs : FS)
    (hanc : ∀ q, q <+: p → stat fs q = none ∨ stat fs q = some .dir)
    (hcl : ∀ q, q <+: p → stat fs q = some .dir → ∀ q1, q1 <+: q → stat fs q1 = some .dir)
    (hlen : p.length ≤ limit) :
    ∀ n, n ≤ p.length → ∃ fs1, mkdirAllAux limit p n fs = (none, fs1) ∧
      ∀ q, stat fs1 q = if q <+: p.take n then some .dir else stat fs q := by
  intro n
  induction n with
  | zero =>
    intro
    have hw : statWithin limit fs (p.take 0) = stat fs (p.take 0) :=
      statWithin_eq fs (by simp)
    rcases hanc (p.take 0) (List.take_prefix _ _) with h | h
    · refine ⟨(p.take 0, .dir) :: fs, ?_, ?_⟩
      · simp only [mkdirAllAux, hw, h]
        exact mkdirLeaf_ok fs (by simp)
      · intro q
        rw [stat_cons]
        simp only [List.take_zero, List.prefix_nil]
        by_cases hq : q = []
        · simp [hq]
        · simp [hq, Ne.symm hq]
    · refine ⟨fs, ?_, ?_⟩
      · simp only [mkdirAllAux, hw, h]
      · intro q
        by_cases hq : q <+: p.take 0
        · rw [if_pos hq]
          exact hcl _ (List.take_prefix _ _) h q hq
        · rw [if_neg hq]
  | succ n ih =>
    intro hn
    have hw : statWithin limit fs (p.take (n + 1)) = stat fs (p.take (n + 1)) :=
      statWithin_eq fs (by simp; omega)
    rcases hanc (p.take (n + 1)) (List.take_prefix _ _) with h | h
    · obtain ⟨fs1, h1, h2⟩ := ih (by omega)
      refine ⟨(p.take (n + 1), .dir) :: fs1, ?_, ?_⟩
      · simp only [mkdirAllAux, hw, h, h1]
        exact mkdirLeaf_ok fs1 (by simp; omega)
      · intro q
        rw [stat_cons, h2 q]
        have hiff := @prefix_take_succ p q n
        by_cases hq : p.take (n + 1) = q
        · rw [if_pos hq, if_pos (hiff.2 (Or.inl hq.symm))]
        · rw [if_neg hq]
          by_cases hq2 : q <+: p.take n
          · rw [if_pos hq2, if_pos (hiff.2 (Or.inr hq2))]
          · rw [if_neg hq2, if_neg]
            intro hc
            rcases hiff.1 hc with h3 | h3
            · exact hq h3.symm
            · exact hq2 h3
    · refine ⟨fs, ?_, ?_⟩
      · simp only [mkdirAllAux, hw, h]
      · intro q
        by_cases hq : q <+: p.take (n + 1)
        · rw [if_pos hq]
          exact hcl _ (List.take_prefix _ _) h q hq
        · rw [if_neg hq]

theorem mkdirAll_ok (limit : Nat) (p : Path) (fs : FS)
    (hanc : ∀ q, q <+: p → stat fs q = none ∨ stat fs q = some .dir)
    (hcl : ∀ q, q <+: p → stat fs q = some .dir → ∀ q1, q1 <+: q → stat fs q1 = some .dir)
    (hlen : p.length ≤ limit) :
    ∃ fs1, mkdirAll limit fs p = (none, fs1) ∧
      ∀ q, stat fs1 q = if q <+: p then some .dir else stat fs q := by
  have h := mkdirAllAux_ok limit p fs hanc hcl hlen p.length (Nat.le_refl _)
  rw [List.take_length] at h
  exact h

/-- Go `MkdirAll` cannot succeed on a path deeper than the limit. -/
theorem mkdirAllAux_too_long (limit : Nat) (p : Path) (fs : FS) :
    ∀ n, limit < (p.take n).length → ∃ e fs1, mkdirAllAux limit p n fs = (some e, fs1) := by
  intro n hn
  have hw : statWithin limit fs (p.take n) = none := by
    unfold statWithin
    rw [if_pos hn]
  cases n with
  | zero => simp at hn
  | succ n =>
    simp only [mkdirAllAux, hw]
    rcases hm : mkdirAllAux limit p n fs with ⟨r, fs1⟩
    cases r with
    | some e => exact ⟨e, fs1, rfl⟩
    | none =>
      refine ⟨.nameTooLong (p.take (n + 1)), fs1, ?_⟩
      simp only [mkdirLeaf, if_pos hn]

theorem mkdirAll_too_long (limit : Nat) (p : Path) (fs : FS) (h : limit < p.length) :
    ∃ e fs1, mkdirAll limit fs p = (some e, fs1) :=
  mkdirAllAux_too_long limit p fs p.length (by rw [List.take_length]; exact h)

theorem copyFile_ok {limit : Nat} {fs : FS} {src dst : Path} {c : String}
    (hsrc : stat fs src = some (.file c)) (hpar : stat fs dst.dropLast = some .dir)
    (hdst : stat fs dst ≠ some .dir) (hlen : dst.length ≤ limit) :
    copyFile limit fs src dst = (none, (dst, .file c) :: (dst, .file "") :: fs) := by
  have hc : create limit fs dst = (none, (dst, .file "") :: fs) := by
    unfold create
    rw [if_neg (by omega)]
    simp only [hpar]
  simp only [copyFile, hsrc, hc]

/-! ## Paths -/

theorem not_concat_prefix_self (dst q : Path) (n : String) (h : q <+: dst) :
    ¬ (dst ++ [n]) <+: q := by
  intro hc
  have h1 := hc.length_le
  have h2 := h.length_le
  simp at h1
  omega

theorem concat_prefix_cons_iff (dst r : Path) (m n : String) :
    (dst ++ [m]) <+: (dst ++ n :: r) ↔ m = n := by
  rw [List.prefix_append_right_inj]
  simp

theorem append_cons_not_above (dst r : Path) (n : String) : ¬ (dst ++ n :: r) <+: dst := by
  intro hc
  have h1 := hc.length_le
  simp at h1

theorem append_cons_prefix_concat (dst r : Path) (m n : String) (h : m ≠ n) :
    ¬ (dst ++ m :: r) <+: (dst ++ [n]) := by
  rw [List.prefix_append_right_inj]
  simp [h]

theorem not_prefix_of_incomparable {src dst : Path} (h1 : ¬ src <+: dst) (r : Path) :
    ¬ (src ++ r) <+: dst :=
  fun hc => h1 ((List.prefix_append src r).trans hc)

theorem not_prefix_append_of_incomparable {src dst : Path} (h1 : ¬ src <+: dst)
    (h2 : ¬ dst <+: src) (r : Path) : ¬ dst <+: (src ++ r) := by
  intro hc
  rcases List.prefix_or_prefix_of_prefix hc (List.prefix_append src r) with h | h
  · exact h2 h
  · exact h1 h

theorem tree_closed {fs : FS} {src : Path}
    (h : ∀ r n, stat fs (src ++ r ++ [n]) ≠ none → stat fs (src ++ r) = some .dir) :
    ∀ (r1 r : Path), r1 ≠ [] → stat fs (src ++ r ++ r1) ≠ none →
      stat fs (src ++ r) = some .dir := by
  intro r1
  induction r1 using List.reverseRecOn with
  | nil => intro r h1; exact absurd rfl h1
  | append_singleton r1 n ih =>
    intro r _ h2
    have h3 : stat fs (src ++ (r ++ r1)) = some .dir := by
      apply h (r ++ r1) n
      simpa [List.append_assoc] using h2
    by_cases hr : r1 = []
    · subst hr
      simpa using h3
    · apply ih r hr
      rw [List.append_assoc, h3]
      simp

/-! ## The loop over directory entries -/

theorem LoopInv.src_eq {fs0 fs1 fs : FS} {src dst : Path} {done : List String}
    (inv : LoopInv fs0 fs1 src dst done fs)
    (h1 : ∀ q, stat fs1 q = if q <+: dst then some .dir else stat fs0 q)
    (hout : ¬ src <+: dst) (hnd : ¬ dst <+: src) (r : Path) :
    stat fs (src ++ r) = stat fs0 (src ++ r) := by
  rw [inv.frame (src ++ r), h1, if_neg (not_prefix_of_incomparable hout r)]
  intro n _ hc
  exact not_prefix_append_of_incomparable hout hnd r ((List.prefix_append dst [n]).trans hc)

theorem LoopInv.dst_absent {fs0 fs1 fs : FS} {src dst : Path} {done : List String}
    (inv : LoopInv fs0 fs1 src dst done fs)
    (h1 : ∀ q, stat fs1 q = if q <+: dst then some .dir else stat fs0 q)
    (hfresh : ∀ r, r ≠ [] → stat fs0 (dst ++ r) = none)
    {n : String} (hn : n ∉ done) (r : Path) :
    stat fs (dst ++ n :: r) = none := by
  rw [inv.frame (dst ++ n :: r), h1, if_neg (append_cons_not_above dst r n)]
  · exact hfresh (n :: r) (by simp)
  · intro m hm hc
    rw [concat_prefix_cons_iff] at hc
    exact hn (hc ▸ hm)

theorem LoopInv.anc_dir {fs0 fs1 fs : FS} {src dst : Path} {done : List String}
    (inv : LoopInv fs0 fs1 src dst done fs)
    (h1 : ∀ q, stat fs1 q = if q <+: dst then some .dir else stat fs0 q)
    {q : Path} (hq : q <+: dst) : stat fs q = some .dir := by
  rw [inv.frame q, h1, if_pos hq]
  intro n _
  exact not_concat_prefix_self dst q n hq

theorem LoopInv.congr {fs0 fs1 fs : FS} {src dst : Path} {d1 d2 : List String}
    (inv : LoopInv fs0 fs1 src dst d1 fs) (h : ∀ n, n ∈ d2 ↔ n ∈ d1) :
    LoopInv fs0 fs1 src dst d2 fs :=
  ⟨fun n hn r => inv.copied n ((h n).1 hn) r,
   fun q hq => inv.frame q (fun n hn => hq n ((h n).2 hn))⟩

/-- The precondition of the recursive call on a sub-directory. -/
theorem CopyPre.child {limit : Nat} {fs0 fs1 fs : FS} {src dst : Path} {done : List String}
    (pre : CopyPre limit fs0 src dst) (hnd : ¬ dst <+: src)
    (h1 : ∀ q, stat fs1 q = if q <+: dst then some .dir else stat fs0 q)
    (inv : LoopInv fs0 fs1 src dst done fs)
    {n : String} (hn : n ∉ done) (hdir : stat fs0 (src ++ [n]) = some .dir) :
    CopyPre limit fs (src ++ [n]) (dst ++ [n]) := by
  have hs := fun r => inv.src_eq h1 pre.outside hnd r
  have habs := fun r => inv.dst_absent h1 pre.fresh hn r
  refine ⟨?_, ?_, ?_, ?_, ?_, ?_, ?_⟩
  · rw [hs, hdir]
  · intro r m hm
    have e1 : src ++ [n] ++ r ++ [m] = src ++ ([n] ++ r ++ [m]) := by simp
    have e2 : src ++ [n] ++ r = src ++ ([n] ++ r) := by simp
    rw [e1, hs] at hm
    rw [e2, hs]
    apply pre.srcTree ([n] ++ r) m
    simpa using hm
  · intro q hq
    rcases List.prefix_concat_iff.1 hq with h | h
    · left
      rw [h]
      exact habs []
    · right
      exact inv.anc_dir h1 h
  · intro q hq hqd q1 hq1
    rcases List.prefix_concat_iff.1 hq with h | h
    · rw [h, habs []] at hqd
      exact absurd hqd (by simp)
    · exact inv.anc_dir h1 (hq1.trans h)
  · intro r _
    have e : dst ++ [n] ++ r = dst ++ n :: r := by simp
    rw [e]
    exact habs r
  · intro hc
    rcases List.prefix_concat_iff.1 hc with h | h
    · exact pre.outside (by
        have := List.append_inj_left' h rfl
        rw [this])
    · exact pre.outside ((List.prefix_append src [n]).trans h)
  · intro r hr
    have e : src ++ [n] ++ r = src ++ (n :: r) := by simp
    rw [e, hs] at hr
    have := pre.within (n :: r) hr
    simp at this ⊢
    omega

/-- After the recursive call on sub-directory `n` the invariant holds with `n`
added to the entries done. -/
theorem LoopInv.step_dir {fs0 fs1 fs fs2 : FS} {src dst : Path} {done : List String}
    (inv : LoopInv fs0 fs1 src dst done fs)
    (h1 : ∀ q, stat fs1 q = if q <+: dst then some .dir else stat fs0 q)
    (hout : ¬ src <+: dst) (hnd : ¬ dst <+: src)
    {n : String} (hn : n ∉ done)
    (post : CopyPost fs fs2 (src ++ [n]) (dst ++ [n])) :
    LoopInv fs0 fs1 src dst (n :: done) fs2 := by
  constructor
  · intro m hm r
    by_cases hmn : m = n
    · subst hmn
      have e1 : dst ++ m :: r = dst ++ [m] ++ r := by simp
      have e2 : src ++ m :: r = src ++ ([m] ++ r) := by simp
      rw [e1, post.copied r, e2, ← inv.src_eq h1 hout hnd, List.append_assoc]
    · have hmd : m ∈ done := by
        rcases List.mem_cons.1 hm with h | h
        · exact absurd h hmn
        · exact h
      rw [post.frame, if_neg (append_cons_prefix_concat dst r m n hmn)]
      · exact inv.copied m hmd r
      · intro hc
        rw [concat_prefix_cons_iff] at hc
        exact hmn hc.symm
  · intro q hq
    have hqn : ¬ (dst ++ [n]) <+: q := hq n (List.mem_cons_self _ _)
    rw [post.frame q hqn]
    by_cases hp : q <+: dst ++ [n]
    · rw [if_pos hp]
      rcases List.prefix_concat_iff.1 hp with h | h
      · exact absurd (h ▸ List.prefix_refl _) hqn
      · rw [h1, if_pos h]
    · rw [if_neg hp]
      exact inv.frame q (fun m hm => hq m (List.mem_cons_of_mem _ hm))

/-- After `copyFile` on entry `n` the invariant holds with `n` added to the
entries done. -/
theorem LoopInv.step_file {fs0 fs1 fs : FS} {src dst : Path} {done : List String}
    (inv : LoopInv fs0 fs1 src dst done fs)
    (h1 : ∀ q, stat fs1 q = if q <+: dst then some .dir else stat fs0 q)
    (htree : ∀ r n, stat fs0 (src ++ r ++ [n]) ≠ none → stat fs0 (src ++ r) = some .dir)
    (hfresh : ∀ r, r ≠ [] → stat fs0 (dst ++ r) = none)
    {n : String} (hn : n ∉ done) {c : String} (hfile : stat fs0 (src ++ [n]) = some (.file c)) :
    LoopInv fs0 fs1 src dst (n :: done)
      ((dst ++ [n], .file c) :: (dst ++ [n], .file "") :: fs) := by
  have hne : ∀ q, dst ++ [n] ≠ q →
      stat ((dst ++ [n], .file c) :: (dst ++ [n], .file "") :: fs) q = stat fs q := by
    intro q hq
    rw [stat_cons, if_neg hq, stat_cons, if_neg hq]
  constructor
  · intro m hm r
    by_cases hmn : m = n
    · subst hmn
      cases r with
      | nil => rw [stat_cons, if_pos rfl, hfile]
      | cons x r =>
        rw [hne _ (by simp), inv.dst_absent h1 hfresh hn]
        symm
        by_contra hc
        have h2 := tree_closed htree (x :: r) [m] (by simp) (by simpa using hc)
        rw [hfile] at h2
        simp at h2
    · have hmd : m ∈ done := by
        rcases List.mem_cons.1 hm with h | h
        · exact absurd h hmn
        · exact h
      rw [hne _ (by simp; exact fun h => absurd h.symm hmn)]
      exact inv.copied m hmd r
  · intro q hq
    have hqn : ¬ (dst ++ [n]) <+: q := hq n (List.mem_cons_self _ _)
    rw [hne q (fun h => hqn (h ▸ List.prefix_refl _))]
    exact inv.frame q (fun m hm => hq m (List.mem_cons_of_mem _ hm))

/-- The loop copies every listed entry, given that the recursive call meets the
specification on sub-directories. -/
theorem copyEntries_ok {limit : Nat} {recur : FS → Path → Path → Option (Option Err × FS)}
    {fs0 fs1 : FS} {src dst : Path}
    (pre : CopyPre limit fs0 src dst) (hnd : ¬ dst <+: src)
    (h1 : ∀ q, stat fs1 q = if q <+: dst then some .dir else stat fs0 q)
    (hrec : ∀ fs n, CopyPre limit fs (src ++ [n]) (dst ++ [n]) →
      ∃ fs2, recur fs (src ++ [n]) (dst ++ [n]) = some (none, fs2) ∧
        CopyPost fs fs2 (src ++ [n]) (dst ++ [n])) :
    ∀ (todo : List DirEntry) (done : List String) (fs : FS),
      (todo.map DirEntry.Name).Nodup →
      (∀ e, e ∈ todo → e.Name ∉ done) →
      (∀ e, e ∈ todo → stat fs0 (src ++ [e.Name]) ≠ none ∧
        e.IsDir = decide (stat fs0 (src ++ [e.Name]) = some .dir)) →
      LoopInv fs0 fs1 src dst done fs →
      ∃ fs2, copyEntries recur limit src dst fs todo = some (none, fs2) ∧
        LoopInv fs0 fs1 src dst (todo.map DirEntry.Name ++ done) fs2 := by
  intro todo
  induction todo with
  | nil =>
    intro done fs _ _ _ inv
    exact ⟨fs, rfl, inv⟩
  | cons e rest ih =>
    intro done fs hnodup hfreshn hent inv
    have hn : e.Name ∉ done := hfreshn e (List.mem_cons_self _ _)
    obtain ⟨hex, hflag⟩ := hent e (List.mem_cons_self _ _)
    rw [List.map_cons, List.nodup_cons] at hnodup
    have hrest : ∀ e1, e1 ∈ rest → e1.Name ∉ e.Name :: done := by
      intro e1 he1 hc
      rcases List.mem_cons.1 hc with h | h
      · exact hnodup.1 (h ▸ List.mem_map_of_mem _ he1)
      · exact hfreshn e1 (List.mem_cons_of_mem _ he1) h
    have hent1 : ∀ e1, e1 ∈ rest → stat fs0 (src ++ [e1.Name]) ≠ none ∧
        e1.IsDir = decide (stat fs0 (src ++ [e1.Name]) = some .dir) :=
      fun e1 he1 => hent e1 (List.mem_cons_of_mem _ he1)
    have hcongr : ∀ n, n ∈ (e :: rest).map DirEntry.Name ++ done ↔
        n ∈ rest.map DirEntry.Name ++ e.Name :: done := by
      intro n
      simp only [List.map_cons, List.mem_append, List.mem_cons]
      tauto
    by_cases hd : stat fs0 (src ++ [e.Name]) = some .dir
    · have hflag1 : e.IsDir = true := by rw [hflag]; exact decide_eq_true hd
      obtain ⟨fs2, hr, post⟩ := hrec fs e.Name (pre.child hnd h1 inv hn hd)
      obtain ⟨fs3, hl, inv3⟩ := ih (e.Name :: done) fs2 hnodup.2 hrest hent1
        (inv.step_dir h1 pre.outside hnd hn post)
      refine ⟨fs3, ?_, inv3.congr hcongr⟩
      simp only [copyEntries, hflag1, if_true, hr]
      exact hl
    · have hflag1 : e.IsDir = false := by rw [hflag]; exact decide_eq_false hd
      obtain ⟨c, hfile⟩ : ∃ c, stat fs0 (src ++ [e.Name]) = some (.file c) := by
        cases hs : stat fs0 (src ++ [e.Name]) with
        | none => exact absurd hs hex
        | some k =>
          cases k with
          | dir => exact absurd hs hd
          | file c => exact ⟨c, rfl⟩
      have hcf : copyFile limit fs (src ++ [e.Name]) (dst ++ [e.Name]) =
          (none, (dst ++ [e.Name], .file c) :: (dst ++ [e.Name], .file "") :: fs) := by
        apply copyFile_ok
        · rw [inv.src_eq h1 pre.outside hnd, hfile]
        · rw [List.dropLast_concat]
          exact inv.anc_dir h1 (List.prefix_refl _)
        · have := inv.dst_absent h1 pre.fresh hn []
          rw [this]
          simp
        · have := pre.within [e.Name] hex
          simpa using this
      obtain ⟨fs3, hl, inv3⟩ := ih (e.Name :: done) _ hnodup.2 hrest hent1
        (inv.step_file h1 pre.srcTree pre.fresh hn hfile)
      refine ⟨fs3, ?_, inv3.congr hcongr⟩
      simp only [copyEntries, hflag1, hcf]
      exact hl

/-! ## `copyDir` meets its specification -/

theorem CopyPre.dst_not_above {limit : Nat} {fs : FS} {src dst : Path}
    (pre : CopyPre limit fs src dst) : ¬ dst <+: src := by
  rintro ⟨t, ht⟩
  by_cases h : t = []
  · subst h
    rw [List.append_nil] at ht
    exact pre.outside (ht ▸ List.prefix_refl _)
  · have h1 := pre.fresh t h
    rw [ht, pre.srcDir] at h1
    simp at h1

theorem copyDirBody_ok {limit : Nat} {recur : FS → Path → Path → Option (Option Err × FS)}
    {fs0 : FS} {src dst : Path} (pre : CopyPre limit fs0 src dst)
    (hrec : ∀ fs n, CopyPre limit fs (src ++ [n]) (dst ++ [n]) →
      ∃ fs2, recur fs (src ++ [n]) (dst ++ [n]) = some (none, fs2) ∧
        CopyPost fs fs2 (src ++ [n]) (dst ++ [n])) :
    ∃ fs2, copyDirBody recur limit fs0 src dst = some (none, fs2) ∧
      CopyPost fs0 fs2 src dst := by
  have hnd := pre.dst_not_above
  have hlen : dst.length ≤ limit := by
    have := pre.within [] (by rw [List.append_nil, pre.srcDir]; simp)
    simpa using this
  obtain ⟨fs1, hm, h1⟩ := mkdirAll_ok limit dst fs0 pre.anc pre.ancClosed hlen
  have hs1 : ∀ r, stat fs1 (src ++ r) = stat fs0 (src ++ r) := by
    intro r
    rw [h1, if_neg (not_prefix_of_incomparable pre.outside r)]
  have hsrc1 : stat fs1 src = some .dir := by
    have := hs1 []
    rw [List.append_nil] at this
    rw [this, pre.srcDir]
  obtain ⟨es, hrd, hnodup, hmem, hflags⟩ := readDir_spec hsrc1
  have inv0 : LoopInv fs0 fs1 src dst [] fs1 :=
    ⟨fun n hn => absurd hn (List.not_mem_nil n), fun _ _ => rfl⟩
  obtain ⟨fs2, hl, inv⟩ := copyEntries_ok pre hnd h1 hrec es [] fs1 hnodup
    (fun e _ => List.not_mem_nil _)
    (fun e he => by
      have h2 := (hmem e.Name).1 (List.mem_map_of_mem _ he)
      have h3 := hflags e he
      rw [hs1] at h2 h3
      exact ⟨h2, h3⟩) inv0
  rw [List.append_nil] at inv
  refine ⟨fs2, ?_, ?_, ?_⟩
  · simp only [copyDirBody, pre.srcDir, hm, hrd]
    exact hl
  · intro r
    cases r with
    | nil =>
      rw [List.append_nil, List.append_nil, inv.frame dst, h1, if_pos (List.prefix_refl _),
        pre.srcDir]
      intro n _
      exact not_concat_prefix_self dst dst n (List.prefix_refl _)
    | cons n r =>
      by_cases hn : n ∈ es.map DirEntry.Name
      · exact inv.copied n hn r
      · rw [inv.dst_absent h1 pre.fresh hn r]
        symm
        by_contra hc
        apply hn
        rw [hmem, hs1]
        by_cases hr : r = []
        · subst hr
          exact hc
        · have := tree_closed pre.srcTree r [n] hr (by simpa using hc)
          rw [this]
          simp
  · intro q hq
    rw [inv.frame q, h1]
    intro n _ hc
    exact hq ((List.prefix_append dst [n]).trans hc)

theorem copyDirFuel_ok (limit : Nat) :
    ∀ (k : Nat) (fs : FS) (src dst : Path), CopyPre limit fs src dst →
      limit + 1 ≤ k + dst.length →
      ∃ fs2, copyDirFuel limit k fs src dst = some (none, fs2) ∧ CopyPost fs fs2 src dst := by
  intro k
  induction k with
  | zero =>
    intro fs src dst pre hk
    have := pre.within [] (by rw [List.append_nil, pre.srcDir]; simp)
    simp at this hk
    omega
  | succ k ih =>
    intro fs src dst pre hk
    apply copyDirBody_ok pre
    intro fs1 n pre1
    apply ih fs1 _ _ pre1
    simp
    omega

/-! ## `copyDir` always returns -/

theorem copyEntries_isSome {limit : Nat} {recur : FS → Path → Path → Option (Option Err × FS)}
    {src dst : Path}
    (hrec : ∀ fs n, (recur fs (src ++ [n]) (dst ++ [n])).isSome) :
    ∀ (es : List DirEntry) (fs : FS), (copyEntries recur limit src dst fs es).isSome := by
  intro es
  induction es with
  | nil => intro fs; rfl
  | cons e rest ih =>
    intro fs
    unfold copyEntries
    split
    · have h := hrec fs e.Name
      split
      · rename_i h1
        rw [h1] at h
        simp at h
      · rfl
      · exact ih _
    · split
      · rfl
      · exact ih _

theorem copyDirBody_isSome {limit : Nat} {recur : FS → Path → Path → Option (Option Err × FS)}
    {src dst : Path} (fs : FS)
    (hrec : dst.length ≤ limit → ∀ fs n, (recur fs (src ++ [n]) (dst ++ [n])).isSome) :
    (copyDirBody recur limit fs src dst).isSome := by
  unfold copyDirBody
  split
  · rfl
  · rfl
  · split
    · rfl
    · rename_i fs1 hm
      have hlen : dst.length ≤ limit := by
        by_contra hc
        obtain ⟨e, fs2, h⟩ := mkdirAll_too_long limit dst fs (by omega)
        rw [h] at hm
        simp at hm
      split
      · rfl
      · exact copyEntries_isSome (hrec hlen) _ _

theorem copyDirFuel_isSome (limit : Nat) :
    ∀ (k : Nat) (fs : FS) (src dst : Path), limit + 1 ≤ k + dst.length →
      (copyDirFuel limit k fs src dst).isSome := by
  intro k
  induction k with
  | zero =>
    intro fs src dst hk
    apply copyDirBody_isSome
    intro h
    simp at hk
    omega
  | succ k ih =>
    intro fs src dst hk
    apply copyDirBody_isSome
    intro _ fs1 n
    apply ih
    simp
    omega

/-- The depth bound inside `copyDir` is never reached: `copyDir` returns what
the source function returns. -/
theorem copyDir_eq (limit : Nat) (fs : FS) (src dst : Path) :
    copyDirFuel limit (limit + 1 - dst.length) fs src dst = some (copyDir limit fs src dst) := by
  have h := copyDirFuel_isSome limit (limit + 1 - dst.length) fs src dst (by omega)
  unfold copyDir
  cases hc : copyDirFuel limit (limit + 1 - dst.length) fs src dst with
  | none => rw [hc] at h; simp at h
  | some r => rfl

/-! ## Well-formed file systems -/

theorem wellFormed_parent {fs : FS} (hwf : wellFormed fs) (p : Path) (n : String)
    (h : stat fs (p ++ [n]) ≠ none) : stat fs p = some .dir := by
  cases hs : stat fs (p ++ [n]) with
  | none => exact absurd hs h
  | some k =>
    rcases hwf _ (stat_mem hs) with h1 | h1
    · simp at h1
    · simpa using h1

theorem wellFormed_ancestor {fs : FS} (hwf : wellFormed fs) {q q1 : Path}
    (hq : stat fs q = some .dir) (hp : q1 <+: q) : stat fs q1 = some .dir := by
  obtain ⟨t, rfl⟩ := hp
  by_cases ht : t = []
  · subst ht
    simpa using hq
  · have := @tree_closed fs q1
      (fun r n h => wellFormed_parent hwf (q1 ++ r) n h) t [] ht (by simp [hq])
    simpa using this

theorem CopyPre.of_wellFormed {limit : Nat} {fs : FS} {src dst : Path}
    (hwf : wellFormed fs) (hsrc : stat fs src = some .dir)
    (hanc : ∀ q ∈ dst.inits, stat fs q = none ∨ stat fs q = some .dir)
    (hempty : ∀ e ∈ fs, dst <+: e.1 → e.1 = dst)
    (hout : ¬ src <+: dst)
    (hlim : ∀ e ∈ fs, src <+: e.1 → dst.length + (e.1.length - src.length) ≤ limit) :
    CopyPre limit fs src dst := by
  refine ⟨hsrc, fun r n h => wellFormed_parent hwf _ n h,
    fun q hq => hanc q ((List.mem_inits _ _).2 hq),
    fun q _ hqd q1 hq1 => wellFormed_ancestor hwf hqd hq1, ?_, hout, ?_⟩
  · intro r hr
    by_contra hc
    cases hs : stat fs (dst ++ r) with
    | none => exact hc hs
    | some k =>
      have := hempty _ (stat_mem hs) (List.prefix_append _ _)
      simp at this
      exact hr this
  · intro r hr
    cases hs : stat fs (src ++ r) with
    | none => exact absurd hs hr
    | some k =>
      have := hlim _ (stat_mem hs) (List.prefix_append _ _)
      simpa using this

/-! ## A destination inside the source -/

/-- Every existing path other than the root lies in a directory. -/
theorem wellFormed_iff (fs : FS) :
    wellFormed fs ↔ ∀ p n, stat fs (p ++ [n]) ≠ none → stat fs p = some .dir := by
  constructor
  · intro h p n hn
    exact wellFormed_parent h p n hn
  · intro h e he
    by_cases hnil : e.1 = []
    · exact Or.inl hnil
    · right
      obtain ⟨p, n, hp⟩ : ∃ p n, e.1 = p ++ [n] :=
        ⟨e.1.dropLast, e.1.getLast hnil, (List.dropLast_concat_getLast hnil).symm⟩
      rw [hp, List.dropLast_concat]
      apply h p n
      rw [← hp]
      exact stat_ne_none_of_mem (k := e.2) he

theorem wellFormed_cons_dir {fs : FS} {q : Path} (hwf : wellFormed fs)
    (hpar : q = [] ∨ stat fs q.dropLast = some .dir) : wellFormed ((q, .dir) :: fs) := by
  rw [wellFormed_iff] at hwf ⊢
  intro p n hn
  rw [stat_cons] at hn ⊢
  by_cases hq : q = p
  · rw [if_pos hq]
  · rw [if_neg hq]
    by_cases hq2 : q = p ++ [n]
    · rcases hpar with h | h
      · rw [h] at hq2
        simp at hq2
      · rw [hq2, List.dropLast_concat] at h
        exact h
    · rw [if_neg hq2] at hn
      exact hwf p n hn

theorem wellFormed_cons_file {fs : FS} {q : Path} {c : String} (hwf : wellFormed fs)
    (hpar : stat fs q.dropLast = some .dir) (_hne : q ≠ [])
    (hq : stat fs q ≠ some .dir) : wellFormed ((q, .file c) :: fs) := by
  rw [wellFormed_iff] at hwf ⊢
  intro p n hn
  rw [stat_cons] at hn ⊢
  have hqp : q ≠ p := by
    intro h
    by_cases hq2 : q = p ++ [n]
    · rw [h] at hq2
      have := congrArg List.length hq2
      simp at this
    · rw [if_neg hq2] at hn
      exact hq (h ▸ hwf p n hn)
  rw [if_neg hqp]
  by_cases hq2 : q = p ++ [n]
  · rw [hq2, List.dropLast_concat] at hpar
    exact hpar
  · rw [if_neg hq2] at hn
    exact hwf p n hn

/-- Go `MkdirAll` keeps the file system well formed, and when it succeeds on the
first `n` components of `p` they name a directory. -/
theorem mkdirAllAux_wellFormed (limit : Nat) (p : Path) :
    ∀ (n : Nat) (fs : FS), n ≤ p.length → wellFormed fs →
      wellFormed (mkdirAllAux limit p n fs).2 ∧
      ((mkdirAllAux limit p n fs).1 = none →
        stat (mkdirAllAux limit p n fs).2 (p.take n) = some .dir) := by
  intro n
  induction n with
  | zero =>
    intro fs _ hwf
    unfold mkdirAllAux
    split
    · rename_i h
      refine ⟨hwf, fun _ => ?_⟩
      unfold statWithin at h
      split at h
      · cases h
      · exact h
    · exact ⟨hwf, fun h => by cases h⟩
    · unfold mkdirLeaf
      split
      · exact ⟨hwf, fun h => by cases h⟩
      · refine ⟨wellFormed_cons_dir hwf (Or.inl (by simp)), fun _ => ?_⟩
        rw [stat_cons, if_pos rfl]
  | succ n ih =>
    intro fs hn hwf
    unfold mkdirAllAux
    split
    · rename_i h
      refine ⟨hwf, fun _ => ?_⟩
      unfold statWithin at h
      split at h
      · cases h
      · exact h
    · exact ⟨hwf, fun h => by cases h⟩
    · have h1 := ih fs (by omega) hwf
      split
      · rename_i e fs1 hm
        rw [hm] at h1
        exact ⟨h1.1, fun h => by cases h⟩
      · rename_i fs1 hm
        rw [hm] at h1
        unfold mkdirLeaf
        split
        · exact ⟨h1.1, fun h => by cases h⟩
        · refine ⟨wellFormed_cons_dir h1.1 (Or.inr ?_), fun _ => ?_⟩
          · have : (p.take (n + 1)).dropLast = p.take n := by
              rw [List.dropLast_eq_take, List.length_take, List.take_take]
              congr 1
              omega
            rw [this]
            exact h1.2 rfl
          · rw [stat_cons, if_pos rfl]

theorem mkdirAll_wellFormed (limit : Nat) (fs : FS) (p : Path) (hwf : wellFormed fs) :
    wellFormed (mkdirAll limit fs p).2 ∧
      ((mkdirAll limit fs p).1 = none → stat (mkdirAll limit fs p).2 p = some .dir) := by
  have h := mkdirAllAux_wellFormed limit p p.length fs (Nat.le_refl _) hwf
  rw [List.take_length] at h
  exact h

theorem copyFile_wellFormed (limit : Nat) (fs : FS) (src dst : Path) (hwf : wellFormed fs) :
    wellFormed (copyFile limit fs src dst).2 := by
  unfold copyFile
  split
  · exact hwf
  · rename_i k _
    have hc : wellFormed (create limit fs dst).2 ∧
        ((create limit fs dst).1 = none →
          (create limit fs dst).2 = (dst, .file "") :: fs ∧
          stat fs dst.dropLast = some .dir ∧ stat fs dst ≠ some .dir) := by
      unfold create
      split
      · exact ⟨hwf, fun h => by cases h⟩
      · split
        · exact ⟨hwf, fun h => by cases h⟩
        · exact ⟨hwf, fun h => by cases h⟩
        · rename_i hpar
          split
          · exact ⟨hwf, fun h => by cases h⟩
          · rename_i hd
            have hne : dst ≠ [] := by
              intro h
              rw [h] at hpar hd
              exact hd hpar
            exact ⟨wellFormed_cons_file hwf hpar hne (fun h => hd h),
              fun _ => ⟨rfl, hpar, fun h => hd h⟩⟩
    split
    · rename_i e fs1 hcr
      rw [hcr] at hc
      exact hc.1
    · rename_i fs1 hcr
      rw [hcr] at hc
      obtain ⟨hwf1, hrest⟩ := hc
      obtain ⟨hfs1, hpar, hd⟩ := hrest rfl
      split
      · exact hwf1
      · have hfs1 : fs1 = (dst, .file "") :: fs := hfs1
        have hne : dst ≠ [] := by
          intro h
          rw [h] at hpar hd
          exact hd hpar
        apply wellFormed_cons_file hwf1 _ hne
        · rw [hfs1, stat_cons, if_pos rfl]
          simp
        · rw [hfs1, stat_cons, if_neg, hpar]
          intro h
          have := congrArg List.length h
          rw [List.length_dropLast] at this
          have : 0 < dst.length := List.length_pos.2 hne
          omega

theorem copyEntries_wellFormed {limit : Nat}
    {recur : FS → Path → Path → Option (Option Err × FS)} {src dst : Path}
    (hrec : ∀ fs s d r, wellFormed fs → recur fs s d = some r → wellFormed r.2) :
    ∀ (es : List DirEntry) (fs : FS), wellFormed fs →
      ∀ r, copyEntries recur limit src dst fs es = some r → wellFormed r.2 := by
  intro es
  induction es with
  | nil =>
    intro fs hwf r hr
    simp only [copyEntries, Option.some.injEq] at hr
    rw [← hr]
    exact hwf
  | cons e rest ih =>
    intro fs hwf r hr
    unfold copyEntries at hr
    split at hr
    · split at hr
      · cases hr
      · rename_i err fs1 hrun
        simp only [Option.some.injEq] at hr
        rw [← hr]
        exact hrec _ _ _ _ hwf hrun
      · rename_i fs1 hrun
        exact ih fs1 (hrec _ _ _ _ hwf hrun) r hr
    · have hcf := copyFile_wellFormed limit fs (src ++ [e.Name]) (dst ++ [e.Name]) hwf
      split at hr
      · rename_i err fs1 hrun
        simp only [Option.some.injEq] at hr
        rw [← hr]
        rw [hrun] at hcf
        exact hcf
      · rename_i fs1 hrun
        rw [hrun] at hcf
        exact ih fs1 hcf r hr

theorem copyDirBody_wellFormed {limit : Nat}
    {recur : FS → Path → Path → Option (Option Err × FS)}
    (hrec : ∀ fs s d r, wellFormed fs → recur fs s d = some r → wellFormed r.2)
    (fs : FS) (src dst : Path) (hwf : wellFormed fs) :
    ∀ r, copyDirBody recur limit fs src dst = some r → wellFormed r.2 := by
  intro r hr
  unfold copyDirBody at hr
  have hmk := (mkdirAll_wellFormed limit fs dst hwf).1
  split at hr
  · simp only [Option.some.injEq] at hr
    rw [← hr]
    exact hwf
  · simp only [Option.some.injEq] at hr
    rw [← hr]
    exact hwf
  · split at hr
    · rename_i e fs1 hm
      simp only [Option.some.injEq] at hr
      rw [← hr]
      rw [hm] at hmk
      exact hmk
    · rename_i fs1 hm
      rw [hm] at hmk
      split at hr
      · simp only [Option.some.injEq] at hr
        rw [← hr]
        exact hmk
      · exact copyEntries_wellFormed hrec _ fs1 hmk r hr

/-- Go `copyDir` keeps the file system well formed, whatever it returns. -/
theorem copyDirFuel_wellFormed (limit : Nat) :
    ∀ (k : Nat) (fs : FS) (src dst : Path) (r : Option Err × FS), wellFormed fs →
      copyDirFuel limit k fs src dst = some r → wellFormed r.2 := by
  intro k
  induction k with
  | zero =>
    intro fs src dst r hwf hr
    exact copyDirBody_wellFormed (fun _ _ _ _ _ h => by cases h) fs src dst hwf r hr
  | succ k ih =>
    intro fs src dst r hwf hr
    exact copyDirBody_wellFormed (fun fs1 s d r1 h1 h2 => ih fs1 s d r1 h1 h2) fs src dst hwf r hr

theorem copyEntries_fails {limit : Nat}
    {recur : FS → Path → Path → Option (Option Err × FS)} {src dst : Path} {n : String}
    (hwfrec : ∀ fs s d r, wellFormed fs → recur fs s d = some r → wellFormed r.2)
    (hfail : ∀ fs2 fs3, wellFormed fs2 →
      recur fs2 (src ++ [n]) (dst ++ [n]) ≠ some (none, fs3)) :
    ∀ (es : List DirEntry) (fs : FS), wellFormed fs →
      (∃ e ∈ es, e.Name = n ∧ e.IsDir = true) →
      ∀ fs1, copyEntries recur limit src dst fs es ≠ some (none, fs1) := by
  intro es
  induction es with
  | nil =>
    rintro fs _ ⟨e, he, _⟩
    exact absurd he (List.not_mem_nil e)
  | cons e rest ih =>
    rintro fs hwf ⟨e1, he1, hname, hflag⟩ fs1 hr
    unfold copyEntries at hr
    split at hr
    · split at hr
      · cases hr
      · cases hr
      · rename_i fs2 hrun
        by_cases hn : e.Name = n
        · rw [hn] at hrun
          exact hfail fs fs2 hwf hrun
        · have he1r : e1 ∈ rest := by
            rcases List.mem_cons.1 he1 with h | h
            · rw [h] at hname
              exact absurd hname hn
            · exact h
          exact ih fs2 (hwfrec _ _ _ _ hwf hrun) ⟨e1, he1r, hname, hflag⟩ fs1 hr
    · rename_i hnd
      have he1r : e1 ∈ rest := by
        rcases List.mem_cons.1 he1 with h | h
        · rw [h] at hflag
          exact absurd hflag hnd
        · exact h
      have hcf := copyFile_wellFormed limit fs (src ++ [e.Name]) (dst ++ [e.Name]) hwf
      split at hr
      · cases hr
      · rename_i fs2 hrun
        rw [hrun] at hcf
        exact ih fs2 hcf ⟨e1, he1r, hname, hflag⟩ fs1 hr

theorem copyDirBody_inside_fails {limit : Nat}
    {recur : FS → Path → Path → Option (Option Err × FS)} {src dst : Path}
    (hwfrec : ∀ fs s d r, wellFormed fs → recur fs s d = some r → wellFormed r.2)
    (hfail : ∀ n, (src ++ [n]) <+: dst → ∀ fs2 fs3, wellFormed fs2 →
      recur fs2 (src ++ [n]) (dst ++ [n]) ≠ some (none, fs3))
    (fs : FS) (hwf : wellFormed fs) (hin : src <+: dst) (hne : src ≠ dst) :
    ∀ fs1, copyDirBody recur limit fs src dst ≠ some (none, fs1) := by
  intro fs9 hr
  obtain ⟨t, ht⟩ := hin
  cases t with
  | nil => exact hne (by simpa using ht)
  | cons n t =>
    have hpre : (src ++ [n]) <+: dst := ⟨t, by rw [← ht]; simp⟩
    have hmk := mkdirAll_wellFormed limit fs dst hwf
    unfold copyDirBody at hr
    split at hr
    · cases hr
    · cases hr
    · split at hr
      · cases hr
      · rename_i fs1 hm
        rw [hm] at hmk
        have hd : stat fs1 dst = some .dir := hmk.2 rfl
        have hsrc1 : stat fs1 src = some .dir :=
          wellFormed_ancestor hmk.1 hd ⟨n :: t, ht⟩
        have hchild : stat fs1 (src ++ [n]) = some .dir :=
          wellFormed_ancestor hmk.1 hd hpre
        obtain ⟨es, hrd, _, hmem, hflags⟩ := readDir_spec hsrc1
        rw [hrd] at hr
        have hn : n ∈ es.map DirEntry.Name := by
          rw [hmem, hchild]
          simp
        obtain ⟨e, he, hename⟩ := List.mem_map.1 hn
        have hflag : e.IsDir = true := by
          rw [hflags e he, hename]
          exact decide_eq_true hchild
        exact copyEntries_fails hwfrec (hfail n hpre) es fs1 hmk.1 ⟨e, he, hename, hflag⟩ fs9 hr

/-- A destination strictly inside the source: the listing of the source
contains the first component of the destination below it, the recursive call
on that entry has its destination strictly inside its source again, and no call
can succeed. -/
theorem copyDirFuel_inside_fails (limit : Nat) :
    ∀ (k : Nat) (fs : FS) (src dst : Path), wellFormed fs → src <+: dst → src ≠ dst →
      ∀ fs1, copyDirFuel limit k fs src dst ≠ some (none, fs1) := by
  intro k
  induction k with
  | zero =>
    intro fs src dst hwf hin hne
    exact copyDirBody_inside_fails (fun _ _ _ _ _ h => by cases h)
      (fun _ _ _ _ _ h => by cases h) fs hwf hin hne
  | succ k ih =>
    intro fs src dst hwf hin hne
    apply copyDirBody_inside_fails
      (fun fs1 s d r1 h1 h2 => copyDirFuel_wellFormed limit k fs1 s d r1 h1 h2) _ fs hwf hin hne
    intro n hpre fs2 fs3 hwf2
    apply ih fs2 _ _ hwf2
    · exact hpre.trans (List.prefix_append dst [n])
    · intro h
      exact hne (List.append_inj_left' h rfl)

/-- With the destination strictly inside the source `copyDir` returns an
error. -/
theorem copyDir_inside_source (limit : Nat) (fs : FS) (src dst : Path)
    (hwf : wellFormed fs) (hin : src <+: dst) (hne : src ≠ dst) :
    (copyDir limit fs src dst).1 ≠ none := by
  intro h
  have h1 := copyDir_eq limit fs src dst
  have h2 : copyDir limit fs src dst = (none, (copyDir limit fs src dst).2) := by
    rw [← h]
  rw [h2] at h1
  exact copyDirFuel_inside_fails limit _ fs src dst hwf hin hne _ h1

/-- Copying an empty directory onto itself changes nothing. -/
theorem copyDir_onto_itself (limit : Nat) (fs : FS) (src : Path)
    (hsrc : stat fs src = some .dir) (hempty : ∀ e ∈ fs, src <+: e.1 → e.1 = src)
    (hlen : src.length ≤ limit) : copyDir limit fs src src = (none, fs) := by
  have hmk : mkdirAll limit fs src = (none, fs) := by
    have hw : statWithin limit fs (src.take src.length) = some .dir := by
      rw [List.take_length, statWithin_eq fs hlen, hsrc]
    unfold mkdirAll
    cases hl : src.length with
    | zero =>
      rw [hl] at hw
      simp only [mkdirAllAux, hw]
    | succ n =>
      rw [hl] at hw
      simp only [mkdirAllAux, hw]
  have hch : childNames fs src = [] := by
    unfold childNames
    rw [List.filterMap_eq_nil_iff]
    intro e he
    split
    · rename_i hc
      exfalso
      have h1 : src <+: e.1 := hc.2 ▸ List.dropLast_prefix e.1
      have h2 := hempty e he h1
      have h3 := congrArg List.length hc.2
      rw [List.length_dropLast, h2] at h3
      have : 0 < src.length := List.length_pos.2 (h2 ▸ hc.1)
      omega
    · rfl
  have hrd : readDir fs src = .ok [] := by
    simp only [readDir, hsrc, hch]
    rfl
  have h := copyDir_eq limit fs src src
  have h2 : copyDirFuel limit (limit + 1 - src.length) fs src src = some (none, fs) := by
    cases limit + 1 - src.length <;>
      simp only [copyDirFuel, copyDirBody, hsrc, hmk, hrd, copyEntries]
  rw [h2] at h
  exact (Option.some.inj h).symm

/-! ## The errors of `copyDir` on a directory -/

theorem DirsKept.refl (fs : FS) : DirsKept fs fs := fun _ h => h

theorem DirsKept.trans {a b c : FS} (h1 : DirsKept a b) (h2 : DirsKept b c) : DirsKept a c :=
  fun q h => h2 q (h1 q h)

theorem DirsKept.cons_dir (fs : FS) (p : Path) : DirsKept fs ((p, .dir) :: fs) := by
  intro q h
  rw [stat_cons]
  split
  · rfl
  · exact h

theorem DirsKept.cons_file (fs : FS) (p : Path) (c : String) (hp : stat fs p ≠ some .dir) :
    DirsKept fs ((p, .file c) :: fs) := by
  intro q h
  rw [stat_cons]
  split
  · rename_i hpq
    rw [hpq] at hp
    exact absurd h hp
  · exact h

theorem mkdirAllAux_kept (limit : Nat) (p : Path) :
    ∀ (n : Nat) (fs : FS), DirsKept fs (mkdirAllAux limit p n fs).2 ∧
      ∀ e, (mkdirAllAux limit p n fs).1 = some e → e.ioFailure = true := by
  intro n
  induction n with
  | zero =>
    intro fs
    unfold mkdirAllAux
    split
    · exact ⟨DirsKept.refl fs, fun e h => by cases h⟩
    · exact ⟨DirsKept.refl fs, fun e h => by cases h; rfl⟩
    · unfold mkdirLeaf
      split
      · exact ⟨DirsKept.refl fs, fun e h => by cases h; rfl⟩
      · exact ⟨DirsKept.cons_dir fs _, fun e h => by cases h⟩
  | succ n ih =>
    intro fs
    unfold mkdirAllAux
    split
    · exact ⟨DirsKept.refl fs, fun e h => by cases h⟩
    · exact ⟨DirsKept.refl fs, fun e h => by cases h; rfl⟩
    · have h1 := ih fs
      split
      · rename_i e fs1 hm
        rw [hm] at h1
        exact ⟨h1.1, fun e1 h => by cases h; exact h1.2 e rfl⟩
      · rename_i fs1 hm
        rw [hm] at h1
        unfold mkdirLeaf
        split
        · exact ⟨h1.1, fun e h => by cases h; rfl⟩
        · exact ⟨h1.1.trans (DirsKept.cons_dir fs1 _), fun e h => by cases h⟩

theorem copyFile_kept (limit : Nat) (fs : FS) (src dst : Path) :
    DirsKept fs (copyFile limit fs src dst).2 ∧
      ∀ e, (copyFile limit fs src dst).1 = some e → e.ioFailure = true := by
  have hc : DirsKept fs (create limit fs dst).2 ∧
      (∀ e, (create limit fs dst).1 = some e → e.ioFailure = true) ∧
      ((create limit fs dst).1 = none → stat (create limit fs dst).2 dst ≠ some .dir) := by
    unfold create
    split
    · exact ⟨DirsKept.refl fs, fun e h => by cases h; rfl, fun h => by cases h⟩
    · split
      · exact ⟨DirsKept.refl fs, fun e h => by cases h; rfl, fun h => by cases h⟩
      · exact ⟨DirsKept.refl fs, fun e h => by cases h; rfl, fun h => by cases h⟩
      · split
        · exact ⟨DirsKept.refl fs, fun e h => by cases h; rfl, fun h => by cases h⟩
        · rename_i hd
          refine ⟨DirsKept.cons_file fs dst "" (fun h => hd h), (fun e h => by cases h), ?_⟩
          intro
          show stat ((dst, Kind.file "") :: fs) dst ≠ some .dir
          rw [stat_cons, if_pos rfl]
          simp
  unfold copyFile
  split
  · exact ⟨DirsKept.refl fs, fun e h => by cases h; rfl⟩
  · split
    · rename_i e fs1 hcr
      rw [hcr] at hc
      exact ⟨hc.1, fun e1 h => by cases h; exact hc.2.1 e rfl⟩
    · rename_i fs1 hcr
      rw [hcr] at hc
      split
      · exact ⟨hc.1, fun e h => by cases h; rfl⟩
      · exact ⟨hc.1.trans (DirsKept.cons_file fs1 dst _ (hc.2.2 rfl)), fun e h => by cases h⟩

theorem copyEntries_kept {limit : Nat}
    {recur : FS → Path → Path → Option (Option Err × FS)} {src dst : Path}
    (hrec : ∀ fs s d r, recur fs s d = some r → DirsKept fs r.2 ∧
      (stat fs s = some .dir → ∀ e, r.1 = some e → e.ioFailure = true)) :
    ∀ (es : List DirEntry) (fs : FS) (r : Option Err × FS),
      copyEntries recur limit src dst fs es = some r →
      DirsKept fs r.2 ∧
      ((∀ e ∈ es, e.IsDir = true → stat fs (src ++ [e.Name]) = some .dir) →
        ∀ e, r.1 = some e → e.ioFailure = true) := by
  intro es
  induction es with
  | nil =>
    intro fs r hr
    simp only [copyEntries, Option.some.injEq] at hr
    rw [← hr]
    exact ⟨DirsKept.refl fs, fun _ e h => by cases h⟩
  | cons e rest ih =>
    intro fs r hr
    unfold copyEntries at hr
    split at hr
    · rename_i hflag
      split at hr
      · cases hr
      · rename_i err fs1 hrun
        simp only [Option.some.injEq] at hr
        rw [← hr]
        have h1 := hrec _ _ _ _ hrun
        exact ⟨h1.1, fun hdirs e1 he1 =>
          h1.2 (hdirs e (List.mem_cons_self _ _) hflag) e1 he1⟩
      · rename_i fs1 hrun
        have h1 := hrec _ _ _ _ hrun
        have h2 := ih fs1 r hr
        exact ⟨h1.1.trans h2.1, fun hdirs =>
          h2.2 (fun e1 he1 hf => h1.1 _ (hdirs e1 (List.mem_cons_of_mem _ he1) hf))⟩
    · have hcf := copyFile_kept limit fs (src ++ [e.Name]) (dst ++ [e.Name])
      split at hr
      · rename_i err fs1 hrun
        simp only [Option.some.injEq] at hr
        rw [← hr]
        rw [hrun] at hcf
        exact ⟨hcf.1, fun _ e1 he1 => hcf.2 e1 he1⟩
      · rename_i fs1 hrun
        rw [hrun] at hcf
        have h2 := ih fs1 r hr
        exact ⟨hcf.1.trans h2.1, fun hdirs =>
          h2.2 (fun e1 he1 hf => hcf.1 _ (hdirs e1 (List.mem_cons_of_mem _ he1) hf))⟩

theorem readDir_flags {fs : FS} {p : Path} {es : List DirEntry} (h : readDir fs p = .ok es) :
    ∀ e ∈ es, e.IsDir = true → stat fs (p ++ [e.Name]) = some .dir := by
  unfold readDir at h
  split at h
  · cases h
  · cases h
  · simp only [Except.ok.injEq] at h
    intro e he hflag
    rw [← h] at he
    obtain ⟨n, _, rfl⟩ := List.mem_map.1 he
    exact of_decide_eq_true hflag

theorem readDir_error {fs : FS} {p : Path} {e : Err} (h : readDir fs p = .error e) :
    e.ioFailure = true := by
  unfold readDir at h
  split at h
  · cases h; rfl
  · cases h; rfl
  · cases h

theorem copyDirBody_kept {limit : Nat}
    {recur : FS → Path → Path → Option (Option Err × FS)}
    (hrec : ∀ fs s d r, recur fs s d = some r → DirsKept fs r.2 ∧
      (stat fs s = some .dir → ∀ e, r.1 = some e → e.ioFailure = true))
    (fs : FS) (src dst : Path) (r : Option Err × FS)
    (hr : copyDirBody recur limit fs src dst = some r) :
    DirsKept fs r.2 ∧ (stat fs src = some .dir → ∀ e, r.1 = some e → e.ioFailure = true) := by
  unfold copyDirBody at hr
  have hmk := mkdirAllAux_kept limit dst dst.length fs
  split at hr
  · rename_i hs
    simp only [Option.some.injEq] at hr
    rw [← hr]
    exact ⟨DirsKept.refl fs, fun h => by rw [hs] at h; cases h⟩
  · rename_i hs
    simp only [Option.some.injEq] at hr
    rw [← hr]
    exact ⟨DirsKept.refl fs, fun h => by rw [hs] at h; cases h⟩
  · split at hr
    · rename_i e fs1 hm
      simp only [Option.some.injEq] at hr
      rw [← hr]
      unfold mkdirAll at hm
      rw [hm] at hmk
      exact ⟨hmk.1, fun _ e1 h => by cases h; exact hmk.2 e rfl⟩
    · rename_i fs1 hm
      unfold mkdirAll at hm
      rw [hm] at hmk
      split at hr
      · rename_i e hrd
        simp only [Option.some.injEq] at hr
        rw [← hr]
        exact ⟨hmk.1, fun _ e1 h => by cases h; exact readDir_error hrd⟩
      · rename_i es hrd
        have h2 := copyEntries_kept hrec es fs1 r hr
        exact ⟨hmk.1.trans h2.1, fun _ => h2.2 (readDir_flags hrd)⟩

/-- Go `copyDir` keeps every directory a directory, and on a source that is a
directory every error it returns reports a failed file-system call. -/
theorem copyDirFuel_kept (limit : Nat) :
    ∀ (k : Nat) (fs : FS) (src dst : Path) (r : Option Err × FS),
      copyDirFuel limit k fs src dst = some r →
      DirsKept fs r.2 ∧ (stat fs src = some .dir → ∀ e, r.1 = some e → e.ioFailure = true) := by
  intro k
  induction k with
  | zero =>
    intro fs src dst r hr
    exact copyDirBody_kept (fun _ _ _ _ h => by cases h) fs src dst r hr
  | succ k ih =>
    intro fs src dst r hr
    exact copyDirBody_kept (fun fs1 s d r1 h => ih fs1 s d r1 h) fs src dst r hr

theorem copyDir_error_ioFailure (limit : Nat) (fs : FS) (src dst : Path)
    (hsrc : stat fs src = some .dir) (e : Err) (he : (copyDir limit fs src dst).1 = some e) :
    e.ioFailure = true :=
  (copyDirFuel_kept limit _ fs src dst _ (copyDir_eq limit fs src dst)).2 hsrc e he

/-! ## Claim C8 -/

/-- C8: when the source path `src` is a directory, every error `copyDir`
returns reports a failed file-system call.  On a well-formed file system, with
a destination that is absent or empty, has no file among its components, is
not strictly inside the source tree and leaves every copied path within the
path limit (the conditions under which no file-system call fails), `copyDir`
returns no error, the tree below `dst` afterwards is entry for entry the tree
below `src` before, the tree below `src` is unchanged, and so is every path
that is neither below `dst` nor a component of it.  When `src` is a regular
file, `copyDir` returns the not-a-directory error and leaves the file system as
it was; when `src` does not exist, it returns the error of `os.Stat` and leaves
the file system as it was. -/
theorem copyDir_roundtrip (limit : Nat) (fs : FS) (src dst : Path) :
    (stat fs src = some .dir →
      (∀ e, (copyDir limit fs src dst).1 = some e → e.ioFailure = true) ∧
      (wellFormed fs →
        (∀ q ∈ dst.inits, stat fs q = none ∨ stat fs q = some .dir) →
        (∀ e ∈ fs, dst <+: e.1 → e.1 = dst) →
        (src <+: dst → src = dst) →
        (∀ e ∈ fs, src <+: e.1 → dst.length + (e.1.length - src.length) ≤ limit) →
        (copyDir limit fs src dst).1 = none ∧
        (∀ r, stat (copyDir limit fs src dst).2 (dst ++ r) = stat fs (src ++ r)) ∧
        (∀ r, stat (copyDir limit fs src dst).2 (src ++ r) = stat fs (src ++ r)) ∧
        (∀ q, ¬ dst <+: q → ¬ q <+: dst →
          stat (copyDir limit fs src dst).2 q = stat fs q))) ∧
    (∀ c, stat fs src = some (.file c) →
      copyDir limit fs src dst = (some (.notADirectory src), fs)) ∧
    (stat fs src = none → copyDir limit fs src dst = (some (.notExist src), fs)) := by
  refine ⟨fun hsrc => ⟨copyDir_error_ioFailure limit fs src dst hsrc, ?_⟩, ?_, ?_⟩
  · intro hwf hanc hempty hin hlim
    by_cases hsd : src = dst
    · subst hsd
      have hlen : src.length ≤ limit := by
        have := hlim _ (stat_mem hsrc) (List.prefix_refl _)
        simpa using this
      rw [copyDir_onto_itself limit fs src hsrc hempty hlen]
      exact ⟨rfl, fun _ => rfl, fun _ => rfl, fun _ _ _ => rfl⟩
    · have hout : ¬ src <+: dst := fun h => hsd (hin h)
      have pre : CopyPre limit fs src dst :=
        CopyPre.of_wellFormed hwf hsrc hanc hempty hout hlim
      have hlen : dst.length ≤ limit := by
        have := pre.within [] (by rw [List.append_nil, pre.srcDir]; simp)
        simpa using this
      obtain ⟨fs2, hrun, post⟩ :=
        copyDirFuel_ok limit (limit + 1 - dst.length) fs src dst pre (by omega)
      have heq : copyDir limit fs src dst = (none, fs2) := by
        have := copyDir_eq limit fs src dst
        rw [hrun] at this
        exact (Option.some.inj this).symm
      rw [heq]
      refine ⟨rfl, post.copied, ?_, ?_⟩
      · intro r
        show stat fs2 (src ++ r) = _
        rw [post.frame _ (not_prefix_append_of_incomparable hout pre.dst_not_above r),
          if_neg (not_prefix_of_incomparable hout r)]
      · intro q h1 h2
        show stat fs2 q = _
        rw [post.frame q h1, if_neg h2]
  · intro c hc
    have h := copyDir_eq limit fs src dst
    have h2 : copyDirFuel limit (limit + 1 - dst.length) fs src dst =
        some (some (.notADirectory src), fs) := by
      cases limit + 1 - dst.length <;> simp only [copyDirFuel, copyDirBody, hc]
    rw [h2] at h
    exact (Option.some.inj h).symm
  · intro hc
    have h := copyDir_eq limit fs src dst
    have h2 : copyDirFuel limit (limit + 1 - dst.length) fs src dst =
        some (some (.notExist src), fs) := by
      cases limit + 1 - dst.length <;> simp only [copyDirFuel, copyDirBody, hc]
    rw [h2] at h
    exact (Option.some.inj h).symm

/-- C8 at a concrete input: staging `app` of `sampleFS` into the fresh
directory `tmp/build` succeeds and reproduces `app/src/index.js`; staging the
regular file `app/package.json` fails and changes nothing. -/
theorem copyDir_roundtrip_witness :
    ((copyDir 8 sampleFS ["app"] ["tmp", "build"]).1 = none ∧
      stat (copyDir 8 sampleFS ["app"] ["tmp", "build"]).2 ["tmp", "build", "src", "index.js"]
        = some (.file "export default 1") ∧
      stat (copyDir 8 sampleFS ["app"] ["tmp", "build"]).2 ["app", "src", "index.js"]
        = some (.file "export default 1")) ∧
    copyDir 8 sampleFS ["app", "package.json"] ["tmp", "build"]
      = (some (.notADirectory ["app", "package.json"]), sampleFS) :=
  have h := ((copyDir_roundtrip 8 sampleFS ["app"] ["tmp", "build"]).1 (by decide)).2
    (by decide) (by decide) (by decide) (by decide) (by decide)
  ⟨⟨h.1, h.2.1 ["src", "index.js"], h.2.2.1 ["src", "index.js"]⟩,
   (copyDir_roundtrip 8 sampleFS ["app", "package.json"] ["tmp", "build"]).2.1 "{}"
     (by decide)⟩

/-- A destination inside the source tree: the listing of the source, read after
the destination was made, contains the destination, and the recursion ends
with the failure of `MkdirAll` at the path limit. -/
theorem copyDir_into_itself :
    (copyDir 2 [(["a"], .dir), ([], .dir)] ["a"] ["a", "b"]).1
      = some (.nameTooLong ["a", "b", "b"]) := by
  decide

/-! ## Claims C6 and C7: the build pipeline -/

theorem stat_removeAll (fs : FS) (t q : Path) :
    stat (removeAll fs t) q = if t <+: q then none else stat fs q := by
  induction fs with
  | nil => simp [removeAll, stat]
  | cons e fs ih =>
    obtain ⟨p, k⟩ := e
    unfold removeAll at ih ⊢
    rw [List.filter_cons]
    by_cases hp : t <+: p
    · simp only [hp, not_true_eq_false, decide_False, Bool.false_eq_true, if_false]
      rw [ih, stat_cons]
      by_cases hq : p = q
      · subst hq
        simp [hp]
      · simp [hq]
    · simp only [hp, not_false_eq_true, decide_True, if_true]
      rw [stat_cons, stat_cons, ih]
      by_cases hq : p = q
      · subst hq
        simp [hp]
      · simp [hq]

/-- Go `runCommand` returns nil exactly when the process ran and exited with
status zero; a process that ran is recorded as started, and nothing else is. -/
theorem runCommand_spec (env : Env) (cmd : Cmd) (w : World) :
    ((runCommand env cmd w).1 = none ↔ ∃ out fs2, env.exec cmd w.fs = .exited out none fs2) ∧
    ((runCommand env cmd w).1 = none → (runCommand env cmd w).2.log = w.log ++ [.started cmd]) ∧
    ((runCommand env cmd w).2.log = w.log ∨
      (runCommand env cmd w).2.log = w.log ++ [.started cmd]) := by
  unfold runCommand
  cases h : env.exec cmd w.fs with
  | pipeError e =>
    refine ⟨⟨fun hc => (by cases hc), fun ⟨_, _, hc⟩ => (by cases hc)⟩, fun hc => (by cases hc),
      Or.inl rfl⟩
  | startError e =>
    refine ⟨⟨fun hc => (by cases hc), fun ⟨_, _, hc⟩ => (by cases hc)⟩, fun hc => (by cases hc),
      Or.inl rfl⟩
  | exited out st fs1 =>
    cases st with
    | none => exact ⟨⟨fun _ => ⟨out, fs1, rfl⟩, fun _ => rfl⟩, fun _ => rfl, Or.inr rfl⟩
    | some e =>
      refine ⟨⟨fun hc => (by cases hc), fun ⟨_, _, hc⟩ => (by cases hc)⟩, fun hc => (by cases hc),
        Or.inr rfl⟩

theorem osRemoveAll_log (env : Env) (w : World) (p : Path) :
    ∃ r, (osRemoveAll env w p).2.log = w.log ++ [.removeAll p r] ∧
      (r = none → (osRemoveAll env w p).2.fs = removeAll w.fs p) ∧
      (r = none ↔ env.removeFailure w.fs p = none) := by
  unfold osRemoveAll
  cases h : env.removeFailure w.fs p with
  | none => exact ⟨none, rfl, fun _ => rfl, ⟨fun _ => rfl, fun _ => rfl⟩⟩
  | some x =>
    obtain ⟨e, left⟩ := x
    exact ⟨some e, rfl, (fun hc => (by cases hc)), ⟨fun hc => (by cases hc), fun hc => (by cases hc)⟩⟩

/-- The steps of `build` in terms of what staging and the two commands
return. -/
theorem buildSteps_eq (env : Env) (b : Builder) (w : World) (t : Path) :
    buildSteps env b t ⟨(t, .dir) :: w.fs, w.log⟩ =
      match (stagingResult env b w t).1 with
      | some e =>
        (.error (.wrap "error copying source directory to temp directory" e),
          ⟨(stagingResult env b w t).2, w.log⟩)
      | none =>
        match (installResult env b w t).1 with
        | some e => (.error (.wrap "error running npm install" e), (installResult env b w t).2)
        | none =>
          match (buildResult env b w t).1 with
          | some e =>
            (.error (.wrap "error running npm run build" e), (buildResult env b w t).2)
          | none => (.ok ⟨t ++ ["build", "index.js"]⟩, (buildResult env b w t).2) := by
  unfold buildSteps buildResult installResult stagingResult installCmd buildCmd
  rcases copyDir env.limit ((t, Kind.dir) :: w.fs) (env.resolve (sourceDir b)) t with ⟨c, fs1⟩
  cases c with
  | some e => rfl
  | none =>
    simp only []
    rcases runCommand env ⟨"npm", ["install"], t⟩ ⟨fs1, w.log⟩ with ⟨i, w2⟩
    cases i with
    | some e => rfl
    | none =>
      simp only []
      rcases runCommand env ⟨"npm", ["run", "build"], t⟩ w2 with ⟨r, w3⟩
      cases r with
      | some e => rfl
      | none => rfl

/-- C6: `runCommand` returns nil exactly when the process ran and exited with
status zero.  When the scratch directory cannot be allocated `build` returns
the allocation error and does nothing.  Otherwise, with `t` the scratch
directory: if `copyDir` returns an error, `build` returns it as the copy error
and no process is started; if `copyDir` returns nil and `runCommand` fails for
`npm install` in `t`, `build` returns that as the install error and `npm run
build` is not started; if both return nil and `runCommand` fails for `npm run
build` in `t`, `build` returns that as the build error, `npm install` having
been started before; if all three return nil, `npm install` and `npm run build`
were started in `t` in this order and `build` returns the Binary at
`build/index.js` under `t`.  A Binary is returned exactly when all three return
nil.  The last event of each run is the call of `os.RemoveAll` on `t`. -/
theorem build_stages (env : Env) (b : Builder) (w : World) :
    (∀ cmd w1, (runCommand env cmd w1).1 = none ↔
      ∃ out fs2, env.exec cmd w1.fs = .exited out none fs2) ∧
    match env.mkdirTemp w.fs with
    | .error e =>
      Builder.build env b w = (.error (.wrap "error creating temp directory" e), w)
    | .ok t =>
      (∀ e, (stagingResult env b w t).1 = some e →
        (Builder.build env b w).1
          = .error (.wrap "error copying source directory to temp directory" e) ∧
        ∃ r, (Builder.build env b w).2.log = w.log ++ [.removeAll t r]) ∧
      ((stagingResult env b w t).1 = none → ∀ e, (installResult env b w t).1 = some e →
        (Builder.build env b w).1 = .error (.wrap "error running npm install" e) ∧
        ∃ r, (Builder.build env b w).2.log = w.log ++ [.removeAll t r] ∨
          (Builder.build env b w).2.log
            = w.log ++ [.started ⟨"npm", ["install"], t⟩, .removeAll t r]) ∧
      ((stagingResult env b w t).1 = none → (installResult env b w t).1 = none →
        ∀ e, (buildResult env b w t).1 = some e →
        (Builder.build env b w).1 = .error (.wrap "error running npm run build" e) ∧
        ∃ r, (Builder.build env b w).2.log
            = w.log ++ [.started ⟨"npm", ["install"], t⟩, .removeAll t r] ∨
          (Builder.build env b w).2.log
            = w.log ++ [.started ⟨"npm", ["install"], t⟩,
                .started ⟨"npm", ["run", "build"], t⟩, .removeAll t r]) ∧
      ((stagingResult env b w t).1 = none → (installResult env b w t).1 = none →
        (buildResult env b w t).1 = none →
        (Builder.build env b w).1 = .ok ⟨t ++ ["build", "index.js"]⟩ ∧
        ∃ r, (Builder.build env b w).2.log
            = w.log ++ [.started ⟨"npm", ["install"], t⟩,
                .started ⟨"npm", ["run", "build"], t⟩, .removeAll t r]) ∧
      ((∃ bin, (Builder.build env b w).1 = .ok bin) ↔
        (stagingResult env b w t).1 = none ∧ (installResult env b w t).1 = none ∧
          (buildResult env b w t).1 = none) := by
  refine ⟨fun cmd w1 => (runCommand_spec env cmd w1).1, ?_⟩
  cases hm : env.mkdirTemp w.fs with
  | error e => simp only [Builder.build, hm]
  | ok t =>
    have hb : Builder.build env b w =
        ((buildSteps env b t ⟨(t, .dir) :: w.fs, w.log⟩).1,
          (osRemoveAll env (buildSteps env b t ⟨(t, .dir) :: w.fs, w.log⟩).2 t).2) := by
      simp only [Builder.build, hm]
    have hsteps := buildSteps_eq env b w t
    have hi := runCommand_spec env ⟨"npm", ["install"], t⟩ ⟨(stagingResult env b w t).2, w.log⟩
    have hr := runCommand_spec env ⟨"npm", ["run", "build"], t⟩ (installResult env b w t).2
    have hi1 : (installResult env b w t).1 = none →
        (installResult env b w t).2.log = w.log ++ [.started ⟨"npm", ["install"], t⟩] := hi.2.1
    have hi2 : (installResult env b w t).2.log = w.log ∨
        (installResult env b w t).2.log = w.log ++ [.started ⟨"npm", ["install"], t⟩] := hi.2.2
    have hr1 : (buildResult env b w t).1 = none →
        (buildResult env b w t).2.log
          = (installResult env b w t).2.log ++ [.started ⟨"npm", ["run", "build"], t⟩] :=
      hr.2.1
    have hr2 : (buildResult env b w t).2.log = (installResult env b w t).2.log ∨
        (buildResult env b w t).2.log
          = (installResult env b w t).2.log ++ [.started ⟨"npm", ["run", "build"], t⟩] :=
      hr.2.2
    simp only []
    rw [hb, hsteps]
    refine ⟨?_, ?_, ?_, ?_, ?_⟩
    · intro e he
      rw [he]
      obtain ⟨r, hlog, _⟩ := osRemoveAll_log env ⟨(stagingResult env b w t).2, w.log⟩ t
      exact ⟨rfl, r, hlog⟩
    · intro hs e he
      rw [hs, he]
      obtain ⟨r, hlog, _⟩ := osRemoveAll_log env (installResult env b w t).2 t
      refine ⟨rfl, r, ?_⟩
      rcases hi2 with h | h
      · left
        show (osRemoveAll env (installResult env b w t).2 t).2.log = _
        rw [hlog, h]
      · right
        show (osRemoveAll env (installResult env b w t).2 t).2.log = _
        rw [hlog, h]
        simp
    · intro hs hin e he
      rw [hs, hin, he]
      obtain ⟨r, hlog, _⟩ := osRemoveAll_log env (buildResult env b w t).2 t
      refine ⟨rfl, r, ?_⟩
      rcases hr2 with h | h
      · left
        show (osRemoveAll env (buildResult env b w t).2 t).2.log = _
        rw [hlog, h, hi1 hin]
        simp
      · right
        show (osRemoveAll env (buildResult env b w t).2 t).2.log = _
        rw [hlog, h, hi1 hin]
        simp
    · intro hs hin hbd
      rw [hs, hin, hbd]
      obtain ⟨r, hlog, _⟩ := osRemoveAll_log env (buildResult env b w t).2 t
      refine ⟨rfl, r, ?_⟩
      show (osRemoveAll env (buildResult env b w t).2 t).2.log = _
      rw [hlog, hr1 hbd, hi1 hin]
      simp
    · cases hs : (stagingResult env b w t).1 with
      | some e => simp
      | none =>
        cases hin : (installResult env b w t).1 with
        | some e => simp
        | none =>
          cases hbd : (buildResult env b w t).1 with
          | some e => simp
          | none => simp

/-- C6 at concrete inputs: for the project of `smallFS` with both commands
exiting normally, staging and the two commands return nil and `build` returns
the Binary; with `npm install` exiting with status 1, `build` returns the
install error. -/
theorem build_stages_witness :
    ((stagingResult (sampleEnv none none) ⟨⟨"app"⟩⟩ ⟨smallFS, []⟩ ["tmp", "build"]).1 = none ∧
      (installResult (sampleEnv none none) ⟨⟨"app"⟩⟩ ⟨smallFS, []⟩ ["tmp", "build"]).1 = none ∧
      (buildResult (sampleEnv none none) ⟨⟨"app"⟩⟩ ⟨smallFS, []⟩ ["tmp", "build"]).1 = none ∧
      (Builder.build (sampleEnv none none) ⟨⟨"app"⟩⟩ ⟨smallFS, []⟩).1
        = .ok ⟨["tmp", "build", "build", "index.js"]⟩) ∧
    ((installResult (sampleEnv (some (.msg "exit status 1")) none) ⟨⟨"app"⟩⟩ ⟨smallFS, []⟩
        ["tmp", "build"]).1 = some (.wrap "command failed" (.msg "exit status 1")) ∧
      (Builder.build (sampleEnv (some (.msg "exit status 1")) none) ⟨⟨"app"⟩⟩ ⟨smallFS, []⟩).1
        = .error (.wrap "error running npm install"
            (.wrap "command failed" (.msg "exit status 1")))) :=
  ⟨⟨rfl, rfl, rfl,
    ((build_stages (sampleEnv none none) ⟨⟨"app"⟩⟩ ⟨smallFS, []⟩).2.2.2.2.1 rfl rfl rfl).1⟩,
   ⟨rfl,
    ((build_stages (sampleEnv (some (.msg "exit status 1")) none) ⟨⟨"app"⟩⟩
      ⟨smallFS, []⟩).2.2.1 rfl _ rfl).1⟩⟩

/-- The events of the steps of `build`: processes started, no removal. -/
theorem buildSteps_log (env : Env) (b : Builder) (w : World) (t : Path) :
    ∃ pre, (buildSteps env b t ⟨(t, .dir) :: w.fs, w.log⟩).2.log = w.log ++ pre ∧
      ∀ d r, Event.removeAll d r ∉ pre := by
  have hi := (runCommand_spec env ⟨"npm", ["install"], t⟩
    ⟨(stagingResult env b w t).2, w.log⟩).2.2
  have hr := (runCommand_spec env ⟨"npm", ["run", "build"], t⟩ (installResult env b w t).2).2.2
  have hi2 : (installResult env b w t).2.log = w.log ∨
      (installResult env b w t).2.log = w.log ++ [.started ⟨"npm", ["install"], t⟩] := hi
  have hr2 : (buildResult env b w t).2.log = (installResult env b w t).2.log ∨
      (buildResult env b w t).2.log
        = (installResult env b w t).2.log ++ [.started ⟨"npm", ["run", "build"], t⟩] := hr
  have hI : ∃ pre, (installResult env b w t).2.log = w.log ++ pre ∧
      ∀ d r, Event.removeAll d r ∉ pre := by
    rcases hi2 with h | h
    · exact ⟨[], by simpa using h, by simp⟩
    · exact ⟨_, h, by simp⟩
  have hB : ∃ pre, (buildResult env b w t).2.log = w.log ++ pre ∧
      ∀ d r, Event.removeAll d r ∉ pre := by
    obtain ⟨pre, hp, hn⟩ := hI
    rcases hr2 with h | h
    · exact ⟨pre, h.trans hp, hn⟩
    · refine ⟨pre ++ [.started ⟨"npm", ["run", "build"], t⟩], ?_, ?_⟩
      · rw [h, hp, List.append_assoc]
      · intro d r hc
        rcases List.mem_append.1 hc with h1 | h1
        · exact hn d r h1
        · simp at h1
  rw [buildSteps_eq]
  cases (stagingResult env b w t).1 with
  | some e => exact ⟨[], by simp, by simp⟩
  | none =>
    cases (installResult env b w t).1 with
    | some e => exact hI
    | none =>
      cases (buildResult env b w t).1 with
      | some e => exact hB
      | none => exact hB

/-- C7, refuted at a concrete input: with the project of `smallFS`, both
commands exiting normally and an `os.RemoveAll` that fails, the scratch
directory `tmp/build` is allocated, `build` returns the Binary with a nil error,
and `tmp/build` still exists when `build` has returned. -/
theorem build_leaves_scratch :
    stuckEnv.mkdirTemp smallFS = .ok ["tmp", "build"] ∧
    (Builder.build stuckEnv ⟨⟨"app"⟩⟩ ⟨smallFS, []⟩).1
      = .ok ⟨["tmp", "build", "build", "index.js"]⟩ ∧
    stat (Builder.build stuckEnv ⟨⟨"app"⟩⟩ ⟨smallFS, []⟩).2.fs ["tmp", "build"] = some .dir ∧
    (Builder.build stuckEnv ⟨⟨"app"⟩⟩ ⟨smallFS, []⟩).2.log.getLast?
      = some (.removeAll ["tmp", "build"] (some (.msg "permission denied"))) := by
  refine ⟨?_, ?_, ?_, ?_⟩ <;> rfl

/-- C7, amended: when the scratch directory `t` was allocated, then whatever
the steps return, `os.RemoveAll` is called on `t` exactly once, as the last
thing `build` does; if that call returns nil, neither `t` nor any path below it
exists when `build` has returned; and what `build` returns does not depend on
whether the call fails.  When the allocation fails, `build` returns the
allocation error, leaves the file system as it was and calls nothing. -/
theorem build_removes_scratch (env : Env) (b : Builder) (w : World) :
    match env.mkdirTemp w.fs with
    | .error e =>
      (Builder.build env b w).1 = .error (.wrap "error creating temp directory" e) ∧
        (Builder.build env b w).2.fs = w.fs ∧ (Builder.build env b w).2.log = w.log
    | .ok t =>
      (∃ pre r, (Builder.build env b w).2.log = w.log ++ pre ++ [.removeAll t r] ∧
        ∀ d r1, Event.removeAll d r1 ∉ pre) ∧
      ((Builder.build env b w).2.log.getLast? = some (.removeAll t none) →
        ∀ q, t <+: q → stat (Builder.build env b w).2.fs q = none) ∧
      (∀ f, (Builder.build { env with removeFailure := f } b w).1
        = (Builder.build env b w).1) := by
  cases hm : env.mkdirTemp w.fs with
  | error e => simp only [Builder.build, hm, and_self]
  | ok t =>
    have hb : Builder.build env b w =
        ((buildSteps env b t ⟨(t, .dir) :: w.fs, w.log⟩).1,
          (osRemoveAll env (buildSteps env b t ⟨(t, .dir) :: w.fs, w.log⟩).2 t).2) := by
      simp only [Builder.build, hm]
    obtain ⟨pre, hpre, hno⟩ := buildSteps_log env b w t
    obtain ⟨r, hlog, hfs, _⟩ :=
      osRemoveAll_log env (buildSteps env b t ⟨(t, .dir) :: w.fs, w.log⟩).2 t
    simp only []
    refine ⟨⟨pre, r, ?_, hno⟩, ?_, ?_⟩
    · rw [hb]
      show (osRemoveAll env (buildSteps env b t ⟨(t, .dir) :: w.fs, w.log⟩).2 t).2.log = _
      rw [hlog, hpre]
    · rw [hb]
      intro hlast q hq
      have hlast1 : (osRemoveAll env (buildSteps env b t ⟨(t, .dir) :: w.fs, w.log⟩).2 t).2.log.getLast?
          = some (.removeAll t none) := hlast
      rw [hlog, List.getLast?_concat] at hlast1
      have hr : r = none := by
        injection hlast1 with h1
        injection h1
      show stat (osRemoveAll env (buildSteps env b t ⟨(t, .dir) :: w.fs, w.log⟩).2 t).2.fs q = none
      rw [hfs hr, stat_removeAll, if_pos hq]
    · intro f
      obtain ⟨l, rs, mk, ex, rf⟩ := env
      simp only [Builder.build]
      simp only [] at hm
      rw [hm]
      rfl

/-- C7, amended, at a concrete input: with an `os.RemoveAll` that succeeds, the
last event of the run on `smallFS` is the successful removal of `tmp/build`,
and `tmp/build` is gone. -/
theorem build_removes_scratch_witness :
    (Builder.build (sampleEnv none none) ⟨⟨"app"⟩⟩ ⟨smallFS, []⟩).2.log.getLast?
      = some (.removeAll ["tmp", "build"] none) ∧
    stat (Builder.build (sampleEnv none none) ⟨⟨"app"⟩⟩ ⟨smallFS, []⟩).2.fs ["tmp", "build"]
      = none :=
  ⟨rfl,
    (build_removes_scratch (sampleEnv none none) ⟨⟨"app"⟩⟩ ⟨smallFS, []⟩).2.1 rfl
      ["tmp", "build"] (List.prefix_refl _)⟩

/-- The four runs of `build` after a successful allocation all occur: with the
project of `smallFS` staged into `tmp/build`, a Binary is returned when both
commands exit normally, the install error when `npm install` fails, the build
error when `npm run build` fails, and the copy error when the source is a
regular file; in each, `os.RemoveAll` succeeding, the scratch directory is gone
afterwards. -/
theorem build_runs :
    ((Builder.build (sampleEnv none none) ⟨⟨"app"⟩⟩ ⟨smallFS, []⟩).1
        = .ok ⟨["tmp", "build", "build", "index.js"]⟩ ∧
      (Builder.build (sampleEnv none none) ⟨⟨"app"⟩⟩ ⟨smallFS, []⟩).2.fs = smallFS) ∧
    ((Builder.build (sampleEnv (some (.msg "exit status 1")) none) ⟨⟨"app"⟩⟩ ⟨smallFS, []⟩).1
        = .error (.wrap "error running npm install"
            (.wrap "command failed" (.msg "exit status 1"))) ∧
      (Builder.build (sampleEnv (some (.msg "exit status 1")) none) ⟨⟨"app"⟩⟩
        ⟨smallFS, []⟩).2.fs = smallFS) ∧
    ((Builder.build (sampleEnv none (some (.msg "exit status 2"))) ⟨⟨"app"⟩⟩ ⟨smallFS, []⟩).1
        = .error (.wrap "error running npm run build"
            (.wrap "command failed" (.msg "exit status 2"))) ∧
      (Builder.build (sampleEnv none (some (.msg "exit status 2"))) ⟨⟨"app"⟩⟩
        ⟨smallFS, []⟩).2.fs = smallFS) ∧
    ((Builder.build { sampleEnv none none with resolve := fun _ => ["app", "index.js"] }
        ⟨⟨"app/index.js"⟩⟩ ⟨smallFS, []⟩).1
        = .error (.wrap "error copying source directory to temp directory"
            (.notADirectory ["app", "index.js"])) ∧
      (Builder.build { sampleEnv none none with resolve := fun _ => ["app", "index.js"] }
        ⟨⟨"app/index.js"⟩⟩ ⟨smallFS, []⟩).2.fs = smallFS) := by
  refine ⟨⟨?_, ?_⟩, ⟨?_, ?_⟩, ⟨?_, ?_⟩, ⟨?_, ?_⟩⟩ <;> rfl

/-! ## Claim C5 -/

/-- C5, at the failing input: `ConfigSet` rejects a `*BuildConfig` whose
`Directory` is empty, although `build` takes an empty `Directory` to mean the
directory `"."`. -/
theorem ConfigSet_rejects_empty_directory :
    Builder.ConfigSet (.buildConfig ⟨""⟩)
      = some (.msg "directory must be set to a valid directory") ∧
    sourceDir ⟨⟨""⟩⟩ = "." := by
  constructor <;> decide

/-- Go `ConfigSet` accepts a `*BuildConfig` exactly when its `Directory` is not
empty. -/
theorem ConfigSet_eq_none_iff (c : BuildConfig) :
    Builder.ConfigSet (.buildConfig c) = none ↔ c.Directory ≠ "" := by
  unfold Builder.ConfigSet
  by_cases h : c.Directory = "" <;> simp [h]

/-! ## Deploy never returns a record -/

/-- The create handler fails in every invocation: when every earlier call
succeeds, the client refuses the backend input, which names no service. -/
theorem resourceDeploymentCreate_fails (api : Fastly) (result : Deployment) :
    ∃ e, Platform.resourceDeploymentCreate api result = .err e := by
  have hb : ∀ v n a p, Client.CreateBackend api ⟨"", v, n, a, p⟩ = .error errMissingService :=
    fun _ _ _ _ => rfl
  unfold Platform.resourceDeploymentCreate
  cases h1 : api.getwd with
  | error e => exact ⟨e, rfl⟩
  | ok cwd =>
    simp only []
    cases h2 : api.openFile (cwd ++ ["app.js"]) with
    | error e => exact ⟨e, rfl⟩
    | ok u =>
      simp only []
      cases h3 : api.newClient (api.getenv "FASTLY_API_TOKEN") with
      | error e => exact ⟨e, rfl⟩
      | ok u1 =>
        simp only []
        cases h4 : api.createService (api.getenv "FASTLY_SERVICE_NAME") with
        | error e => exact ⟨e, rfl⟩
        | ok service =>
          simp only [hb]
          exact ⟨errMissingService, rfl⟩

/-- In every invocation `CreateAll` fails and `deploy` returns the error: no run
of `deploy` reaches its `return &Deployment{}, nil`. -/
theorem deploy_fails (api : Fastly) : ∃ e, Platform.deploy api = .err e := by
  obtain ⟨e, he⟩ := resourceDeploymentCreate_fails api ⟨"", "", none⟩
  refine ⟨e, ?_⟩
  simp only [Platform.deploy, Platform.deployResult, Manager.CreateAll,
    Platform.resourceManager, createEach, he]

/-- Even when the API would accept every request, `deploy` returns the
client's missing-service error. -/
theorem deploy_happyApi : Platform.deploy happyApi = .err errMissingService := rfl

/-! ## Claims C2, C3, C9 and C10: destroy and status -/

theorem findService_eq (n : String) (services : List Service) :
    Platform.findService n services =
      match services.find? (fun s => s.Name = n) with
      | some s => .ok s.ID
      | none => .error (.msg ("service not found: " ++ n)) := by
  induction services with
  | nil => rfl
  | cons s rest ih =>
    unfold Platform.findService
    by_cases h : s.Name = n
    · simp [h]
    · simp [h, ih]

/-- Go `getServiceID` on a listing that succeeded: the ID of the first service
with the name, and the not-found error exactly when no service has it. -/
theorem getServiceID_spec (api : Fastly) (n : String) (services : List Service)
    (h : api.listServices = .ok services) :
    (∀ s, services.find? (fun s => s.Name = n) = some s →
      Platform.getServiceID api n = .ok s.ID) ∧
    (Platform.getServiceID api n = .error (.msg ("service not found: " ++ n)) ↔
      ∀ s ∈ services, s.Name ≠ n) := by
  unfold Platform.getServiceID
  rw [h]
  simp only [findService_eq]
  constructor
  · intro s hs
    rw [hs]
  · cases hf : services.find? (fun s => s.Name = n) with
    | none =>
      simp only [true_iff]
      intro s hs
      have := List.find?_eq_none.1 hf s hs
      simpa using this
    | some s =>
      constructor
      · intro hc
        cases hc
      · intro hall
        have := List.find?_some hf
        exact absurd (by simpa using this) (hall s (List.mem_of_find?_eq_some hf))

/-- C3, at the failing input: no resource of the manager is named
`deployment`, and on a record without resource state both `destroy` and
`status` panic at the lookup, before `DestroyAll` and `StatusReport`. -/
theorem seed_lookup_fails (api : Fastly) :
    Platform.resourceManager.Resource "deployment" = none ∧
    Platform.resourceManager.State.map Prod.fst = ["template_example"] ∧
    Platform.destroy api legacyDeployment = (.panic nilDereference, []) ∧
    Platform.status api legacyDeployment = .panic nilDereference := by
  refine ⟨?_, ?_, ?_, ?_⟩ <;> rfl

/-- C2, at the failing input: `destroy` loads the entry named `app` into its
manager, and the destroy handler, reading from a manager of its own, panics
before any service is looked up. -/
theorem destroy_ignores_restored_state (api : Fastly) :
    (Platform.resourceManager.LoadState [("template_example", ⟨"app"⟩)]).State
      = [("template_example", ⟨"app"⟩)] ∧
    Platform.destroy api restoredDeployment = (.panic nilDereference, []) := by
  constructor <;> rfl

/-- C9, at the failing input: with no service listed, `getServiceID` returns the
not-found error for `app`, and the destroy handler panics without having
called it. -/
theorem second_destroy_panics :
    Platform.getServiceID goneApi "app" = .error (.msg "service not found: app") ∧
    Platform.resourceDeploymentDestroy goneApi = (.panic nilDereference, []) ∧
    Platform.destroy goneApi restoredDeployment = (.panic nilDereference, []) := by
  refine ⟨?_, ?_, ?_⟩ <;> rfl

/-- C10, at the failing input: for the record with Id `svc-1` and Name `app`,
`status` seeds the name `svc-1` and `destroy` seeds the name `app`. -/
theorem seeds_differ :
    Platform.statusSeed legacyDeployment = ⟨"svc-1"⟩ ∧
    Platform.destroySeed legacyDeployment = ⟨"app"⟩ ∧
    Platform.statusSeed legacyDeployment ≠ Platform.destroySeed legacyDeployment := by
  refine ⟨rfl, rfl, ?_⟩
  decide

end Waypoint
